import Mathlib

/-!
# Trivia module: answer normalisation, fuzzy matching and session commands

A shallow embedding of `modules/trivia/trivia.cpp`.  A `std::string` is a list of
characters; the table of the edit distance is filled row by row as the two nested
loops of the source do; the map of sessions is a function from channel ids.

The definitions come first, the theorems about them follow.
-/

set_option autoImplicit false

namespace Trivia

/-! ## Text helpers of the host library -/

/-- Modelled from the spec: `lowercase` of `sporks/stringops.h`, which is not part of
the sources at hand; every character is folded to lower case. -/
def lowercase (s : List Char) : List Char := s.map Char.toLower

/-- Modelled from the spec: `uppercase` of `sporks/stringops.h`, which is not part of
the sources at hand; every character is folded to upper case. -/
def uppercase (s : List Char) : List Char := s.map Char.toUpper

/-- The class `\d` of the patterns: a decimal digit. -/
def isDigitChar (c : Char) : Bool := c.isDigit

/-- Modelled from the spec: the pattern `^(\d+)$` handed to the `PCRE` wrapper of
`sporks/regex.h` (not part of the sources at hand), read as the spec words it: the
text is purely digits, at least one. -/
def matchDigits (s : List Char) : Bool := !s.isEmpty && s.all isDigitChar

/-- Modelled from the spec: the pattern `^\$(\d+)$` handed to the `PCRE` wrapper: a
dollar sign followed by digits only, at least one. -/
def matchDollarDigits (s : List Char) : Bool :=
  match s with
  | c :: rest => c == '$' && matchDigits rest
  | [] => false

/-! ## Edit distance -/

/-- The helper `min3` of the source. -/
def min3 (x y z : Nat) : Nat := min (min x y) z

/-- The inner loop of `levenstein` for `j = 1 .. n` on one row `i`: `c` is
`str1[i-1]`, the list holds `str2[j-1 ..]`, `diag` is `dp[i-1][j-1]`, `left` is
`dp[i][j-1]` and the last list is `dp[i-1][j ..]`. -/
def levRowAux (c : Char) : List Char → Nat → Nat → List Nat → List Nat
  | y :: ys, diag, left, up :: ups =>
    let v := if c = y then diag else 1 + min3 left up diag
    v :: levRowAux c ys up v ups
  | _, _, _, _ => []

/-- Row `i` of the table from row `i - 1`: `dp[i][0] = i`, the rest by the inner
loop. -/
def levRow (c : Char) (i : Nat) (str2 : List Char) (prev : List Nat) : List Nat :=
  match prev with
  | [] => []
  | p0 :: ps => i :: levRowAux c str2 p0 i ps

/-- The outer loop of `levenstein` from row `i` on: the list holds `str1[i ..]` and
`row` is `dp[i][0 .. n]`. -/
def levTable : List Char → List Char → Nat → List Nat → List Nat
  | [], _, _, row => row
  | c :: cs, str2, i, row => levTable cs str2 (i + 1) (levRow c (i + 1) str2 row)

/-- The method `TriviaModule::levenstein`: both texts are folded to upper case, row `0` of the
table is `0 .. n`, and the result is `dp[m][n]`. -/
def levenstein (str1 str2 : List Char) : Nat :=
  let s1 := uppercase str1
  let s2 := uppercase str2
  (levTable s1 s2 0 (List.range (s2.length + 1))).getD s2.length 0

/-! ## The answer test of `OnMessage` -/

/-- The condition of the `if` that accepts an answer in `OnMessage`: the message is
at least as long as the answer and equal to it ignoring case, or the answer is
neither `$digits` nor `digits` and the edit distance is below two. -/
def answerMatches (trivia_message curr_answer : List Char) : Bool :=
  (decide (trivia_message.length ≥ curr_answer.length)
      && decide (lowercase curr_answer = lowercase trivia_message))
    || (!matchDollarDigits curr_answer && !matchDigits curr_answer
      && decide (levenstein trivia_message curr_answer < 2))

/-! ## What the claims about the answer test speak of -/

/-- A script of single-character edits that turns the first text into the second, read
from the front: a character is kept at no cost, or substituted, deleted or inserted at
cost one each; the number is the total cost of the script. -/
inductive EditScript : List Char → List Char → Nat → Prop
  | done : EditScript [] [] 0
  | keep (x : Char) {s t : List Char} {n : Nat} :
      EditScript s t n → EditScript (x :: s) (x :: t) n
  | substitute (x y : Char) {s t : List Char} {n : Nat} :
      EditScript s t n → EditScript (x :: s) (y :: t) (n + 1)
  | delete (x : Char) {s t : List Char} {n : Nat} :
      EditScript s t n → EditScript (x :: s) t (n + 1)
  | insert (y : Char) {s t : List Char} {n : Nat} :
      EditScript s t n → EditScript s (y :: t) (n + 1)

/-- The recurrence that the loop body of `levenstein` writes into `dp[i][j]`, on the
reversed prefixes `str1[0 .. i)` and `str2[0 .. j)` (the head of a list is the last
character of the prefix). -/
def cellValue : List Char → List Char → Nat
  | [], t => t.length
  | _ :: s, [] => s.length + 1
  | x :: s, y :: t =>
    if x = y then cellValue s t
    else 1 + min3 (cellValue (x :: s) t) (cellValue s (y :: t)) (cellValue s t)
termination_by s t => s.length + t.length

/-- The cells `dp[i][j + 1 ..]` of one row: `r` is the reversed prefix of `str1`, the
second list the reversed prefix `str2[0 .. j)`, the third the rest of `str2`. -/
def cells (r : List Char) : List Char → List Char → List Nat
  | _, [] => []
  | p, y :: ys => cellValue r (y :: p) :: cells r (y :: p) ys

/-- A purely numeric answer in the words of the specification: a run of digits, at
least one, optionally after a `$`, optionally with a leading `-`. -/
def purelyNumeric (s : List Char) : Bool :=
  match s with
  | '-' :: rest => matchDigits rest || matchDollarDigits rest
  | _ => matchDigits s || matchDollarDigits s

/-! ## Spelled numbers: `conv_num` -/

/-- The white space that `operator>>` skips and that `\s` matches. -/
def isSpaceChar (c : Char) : Bool :=
  c == ' ' || c == '\t' || c == '\n' || c == '\x0b' || c == '\x0c' || c == '\r'

/-- The scan of `ReplaceString` from one position on: `skip` characters of an
occurrence just replaced are still to be passed; otherwise an occurrence of `search`
that starts here is replaced and the scan resumes after it, and any other character is
kept. -/
def replaceFrom (search replace : List Char) : List Char → Nat → List Char
  | [], _ => []
  | _ :: cs, skip + 1 => replaceFrom search replace cs skip
  | c :: cs, 0 =>
    if search.isPrefixOf (c :: cs) then
      replace ++ replaceFrom search replace cs (search.length - 1)
    else c :: replaceFrom search replace cs 0

/-- Modelled from the spec: `ReplaceString` of `sporks/stringops.h`, which is not part
of the sources at hand: every occurrence of the (non-empty) search text is replaced,
from left to right, occurrences not overlapping. -/
def ReplaceString (subject search replace : List Char) : List Char :=
  replaceFrom search replace subject 0

/-- The loop `while ((str >> v))`: the words between white space, `cur` being the
word under way, last character first. -/
def extractWords : List Char → List Char → List (List Char)
  | [], cur => if cur.isEmpty then [] else [cur.reverse]
  | c :: cs, cur =>
    if isSpaceChar c then
      if cur.isEmpty then extractWords cs [] else cur.reverse :: extractWords cs []
    else extractWords cs (c :: cur)

/-- Whether `pat` occurs somewhere in `s`. -/
def hasInfix (pat s : List Char) : Bool := s.tails.any (fun t => pat.isPrefixOf t)

/-- Modelled from the spec: `PCRE(word, true).Match(s)` of the wrapper in
`sporks/regex.h` (not part of the sources at hand) for a pattern that is a plain
word: the word occurs in the text, letter case ignored. -/
def matchCaseless (pat s : List Char) : Bool := hasInfix (lowercase pat) (lowercase s)

/-- The map `nn` of `conv_num`: the number words and their values. -/
def nn : List (List Char × Int) :=
  [ ("one".toList, 1), ("two".toList, 2), ("three".toList, 3), ("four".toList, 4),
    ("five".toList, 5), ("six".toList, 6), ("seven".toList, 7), ("eight".toList, 8),
    ("nine".toList, 9), ("ten".toList, 10), ("eleven".toList, 11), ("twelve".toList, 12),
    ("thirteen".toList, 13), ("fourteen".toList, 14), ("forteen".toList, 14),
    ("fifteen".toList, 15), ("sixteen".toList, 16), ("seventeen".toList, 17),
    ("eighteen".toList, 18), ("nineteen".toList, 19), ("twenty".toList, 20),
    ("thirty".toList, 30), ("fourty".toList, 40), ("forty".toList, 40),
    ("fifty".toList, 50), ("sixty".toList, 60), ("seventy".toList, 70),
    ("eighty".toList, 80), ("ninety".toList, 90) ]

/-- Arithmetic of a 32-bit `int`: the value is taken modulo `2^32` into
`[-2^31, 2^31)`. -/
def wrap32 (x : Int) : Int := (x + 2147483648) % 4294967296 - 2147483648

/-- The decimal text of an `int`, as `std::to_string` gives it. -/
def to_string (n : Int) : List Char :=
  if n < 0 then '-' :: Nat.toDigits 10 n.natAbs else Nat.toDigits 10 n.toNat

/-- The test of the first loop of `conv_num`: the word is not a key of `nn` and
contains none of `million`, `thousand`, `hundred`, `dollars`. -/
def isUnknownWord (x : List Char) : Bool :=
  (nn.lookup (lowercase x)).isNone && !matchCaseless "million".toList x
    && !matchCaseless "thousand".toList x && !matchCaseless "hundred".toList x
    && !matchCaseless "dollars".toList x

/-- The pattern `hundred|thousand|million`, letter case ignored, of the second loop. -/
def matchScale (s : List Char) : Bool :=
  matchCaseless "hundred".toList s || matchCaseless "thousand".toList s
    || matchCaseless "million".toList s

/-- The second loop of `conv_num` over the words still to come, with the locals
`last`, `initial` and `currency`; the result is `initial` and `currency` at the end. -/
def convLoop : List (List Char) → Int → Int → List Char → Int × List Char
  | [], _, initial, currency => (initial, currency)
  | next :: rest, last, initial, currency =>
    let nextnum := lowercase next
    let lookahead := rest.headD []
    let last1 := match nn.lookup nextnum with
      | some v => v
      | none => last
    let dollars := matchCaseless "dollars".toList nextnum
    let currency1 := if dollars then ['$'] else currency
    let last2 := if dollars then 0 else last1
    if !matchScale lookahead then
      convLoop rest 0 (wrap32 (initial + last2)) currency1
    else if matchCaseless "hundred".toList lookahead then
      convLoop rest 0 (wrap32 (initial + wrap32 (last2 * 100))) currency1
    else if matchCaseless "thousand".toList lookahead then
      convLoop rest 0 (wrap32 (initial + wrap32 (last2 * 1000))) currency1
    else if matchCaseless "million".toList lookahead then
      convLoop rest 0 (wrap32 (initial + wrap32 (last2 * 1000000))) currency1
    else convLoop rest last2 initial currency1

/-- The vector `nums` of `conv_num`: an empty text stands for `zero`, double blanks
are collapsed, hyphens removed, ` and ` collapsed to a blank, and the text is split
at white space. -/
def numWords (datain : List Char) : List (List Char) :=
  let datain0 := if datain.isEmpty then "zero".toList else datain
  let datain1 := ReplaceString datain0 "  ".toList " ".toList
  let datain2 := ReplaceString datain1 "-".toList []
  let datain3 := ReplaceString datain2 " and ".toList " ".toList
  extractWords datain3 []

/-- The method `TriviaModule::conv_num`. -/
def conv_num (datain : List Char) : List Char :=
  let nums := numWords datain
  if nums.any isUnknownWord then "0".toList
  else
    let r := convLoop nums 0 0 []
    r.2 ++ to_string r.1

/-! ## Currency and number tidy: `tidy_num` -/

/-- The class `[\d\,]` of the patterns: a digit or a comma. -/
def isNumberChar (c : Char) : Bool := c.isDigit || c == ','

/-- Modelled from the spec: the pattern `^([\d\,]+)\s+dollars$` handed to the `PCRE`
wrapper (not part of the sources at hand), read as the spec words it, the whole text
being `<digits-with-commas> dollars`: a run of digits and commas, white space, and
the word `dollars` up to the end; the result is the first group. -/
def number_tidy_dollars (s : List Char) : Option (List Char) :=
  let digits := s.takeWhile isNumberChar
  let blanks := (s.dropWhile isNumberChar).takeWhile isSpaceChar
  let rest := (s.dropWhile isNumberChar).dropWhile isSpaceChar
  if !digits.isEmpty && !blanks.isEmpty && rest == "dollars".toList then some digits
  else none

/-- Modelled from the spec: the pattern `^([\d\,]+)\s+(.+?)$` handed to the `PCRE`
wrapper, the whole text being `<digits-with-commas> <suffix>`: a run of digits and
commas, white space, and at least one more character up to the end, none of them a
line feed (`.` does not match one).  When nothing follows the white space, the
matcher gives back the last blank to the second group.  The result is the two
groups. -/
def number_tidy_nodollars (s : List Char) : Option (List Char × List Char) :=
  let digits := s.takeWhile isNumberChar
  let blanks := (s.dropWhile isNumberChar).takeWhile isSpaceChar
  let rest := (s.dropWhile isNumberChar).dropWhile isSpaceChar
  if digits.isEmpty || blanks.isEmpty then none
  else if !rest.isEmpty then
    if rest.all (fun c => c != '\n') then some (digits, rest) else none
  else if decide (2 ≤ blanks.length) && blanks.getLastD ' ' != '\n' then
    some (digits, [blanks.getLastD ' '])
  else none

/-- Modelled from the spec: the pattern `^[\d\,]+$` handed to the `PCRE` wrapper: the
text is digits and commas only, at least one. -/
def number_tidy_positive (s : List Char) : Bool := !s.isEmpty && s.all isNumberChar

/-- Modelled from the spec: the pattern `^\-[\d\,]+$` handed to the `PCRE` wrapper: a
`-` followed by digits and commas only, at least one. -/
def number_tidy_negative (s : List Char) : Bool :=
  match s with
  | c :: rest => c == '-' && !rest.isEmpty && rest.all isNumberChar
  | [] => false

/-- The first `if` of `tidy_num`: `<digits> dollars` becomes `$<digits>`, commas
removed. -/
def tidyDollars (num : List Char) : List Char :=
  match number_tidy_dollars num with
  | some p1 => '$' :: ReplaceString p1 ",".toList []
  | none => num

/-- The second `if` of `tidy_num`: a text of more than one character that starts
with `$` loses its commas. -/
def tidyDollarSign (num : List Char) : List Char :=
  if decide (num.length > 1) && num.head? == some '$' then ReplaceString num ",".toList []
  else num

/-- The third `if` of `tidy_num`: `<digits> <suffix>` loses the commas of the
digits. -/
def tidyNoDollars (num : List Char) : List Char :=
  match number_tidy_nodollars num with
  | some (numbers, suffix) => ReplaceString numbers ",".toList [] ++ " ".toList ++ suffix
  | none => num

/-- The fourth `if` of `tidy_num`: a positive or negative number loses its commas. -/
def tidySigned (num : List Char) : List Char :=
  if number_tidy_positive num || number_tidy_negative num then
    ReplaceString num ",".toList []
  else num

/-- The method `TriviaModule::tidy_num`: its four `if`s in turn. -/
def tidy_num (num : List Char) : List Char :=
  tidySigned (tidyNoDollars (tidyDollarSign (tidyDollars num)))

/-! ## Normalisation of an incoming message -/

/-- The value of a run of decimal digits. -/
def digitsValue (ds : List Char) : Nat :=
  ds.foldl (fun acc c => 10 * acc + (c.toNat - '0'.toNat)) 0

/-- The extraction `stream >> value` of a 32-bit `int`: white space is skipped; at
the end of the input nothing is read and the variable keeps the value `old` it had;
otherwise an optional sign and the digits that follow are read, no digit giving `0`
and a value out of range the nearest bound. -/
def extractInt (stream : List Char) (old : Int) : Int :=
  let t := stream.dropWhile isSpaceChar
  if t.isEmpty then old
  else
    let negative := t.head? == some '-'
    let body := if t.head? == some '-' || t.head? == some '+' then t.tail else t
    let ds := body.takeWhile Char.isDigit
    if ds.isEmpty then 0
    else
      let v : Int := if negative then -(digitsValue ds : Int) else (digitsValue ds : Int)
      if v > 2147483647 then 2147483647
      else if v < -2147483648 then -2147483648
      else v

/-- Modelled from the spec: `from_string<int>(s, std::dec)` of `sporks/stringops.h`,
which is not part of the sources at hand: the number is extracted from the front of
the text.  Its local is not initialised; `0` stands for it here, and the text that
`OnMessage` hands over, a result of `conv_num`, is never blank. -/
def from_string (s : List Char) : Int := extractInt s 0

/-- The first lines of `OnMessage`: the message is replaced by `conv_num` of it when
that parses as a positive number, and the result goes through `tidy_num`. -/
def normalizeMessage (clean_message : List Char) : List Char :=
  let x := from_string (conv_num clean_message)
  let trivia_message := if x > 0 then conv_num clean_message else clean_message
  tidy_num trivia_message

/-! ## What the claims about normalisation speak of -/

/-- The scale words and their magnitudes. -/
def scaleWords : List (List Char × Int) :=
  [("hundred".toList, 100), ("thousand".toList, 1000), ("million".toList, 1000000)]

/-- A group of a spelled number: a unit or tens word with its value, optionally
followed by a scale word with its magnitude. -/
structure NumGroup where
  unit : List Char × Int
  scale : Option (List Char × Int)

/-- The unit word is an entry of `nn` and the scale word, when present, is one of the
three scale words. -/
def NumGroup.wellFormed (g : NumGroup) : Prop :=
  g.unit ∈ nn ∧ ∀ s ∈ g.scale, s ∈ scaleWords

instance (g : NumGroup) : Decidable g.wellFormed := by
  unfold NumGroup.wellFormed; exact inferInstance

/-- The value `v * m` of a group, `m = 1` without a scale word. -/
def NumGroup.value (g : NumGroup) : Int :=
  g.unit.2 * (match g.scale with
    | none => 1
    | some s => s.2)

/-- The text of a group: the unit word, then a blank and the scale word if any. -/
def NumGroup.text (g : NumGroup) : List Char :=
  g.unit.1 ++ (match g.scale with
    | none => []
    | some s => ' ' :: s.1)

/-- The separator between two groups or words: ` and ` or a single blank. -/
def separator (viaAnd : Bool) : List Char :=
  if viaAnd then " and ".toList else " ".toList

/-- The groups after the first, each after its separator. -/
def phraseRest : List (Bool × NumGroup) → List Char
  | [] => []
  | (b, g) :: r => separator b ++ g.text ++ phraseRest r

/-- The phrase made of a first group and further groups after their separators. -/
def phraseText (g0 : NumGroup) (gs : List (Bool × NumGroup)) : List Char :=
  g0.text ++ phraseRest gs

/-- The sum of `v * m` over the groups of a phrase. -/
def phraseValue (g0 : NumGroup) (gs : List (Bool × NumGroup)) : Int :=
  g0.value + (gs.map (fun p => p.2.value)).sum

/-- Words after their separators: a phrase once its groups are forgotten. -/
def wordsText : List (Bool × List Char) → List Char
  | [] => []
  | (b, w) :: r => separator b ++ w ++ wordsText r

/-- The words a well-formed group can be made of. -/
def vocabulary : List (List Char) := nn.map Prod.fst ++ scaleWords.map Prod.fst

/-- The scale word of a group after its blank, if any. -/
def scalePart (g : NumGroup) : List (Bool × List Char) :=
  match g.scale with
  | none => []
  | some s => [(false, s.1)]

/-- The words of the groups after the first, with their separators. -/
def flatRest : List (Bool × NumGroup) → List (Bool × List Char)
  | [] => []
  | (b, g) :: r => (b, g.unit.1) :: scalePart g ++ flatRest r

/-- The one or two words of a group. -/
def groupWords (g : NumGroup) : List (List Char) :=
  g.unit.1 :: (match g.scale with
    | none => []
    | some s => [s.1])

/-- The words of a list of groups. -/
def groupsWords : List NumGroup → List (List Char)
  | [] => []
  | g :: r => groupWords g ++ groupsWords r

/-- The sum of the values of a list of groups. -/
def groupsValue : List NumGroup → Int
  | [] => 0
  | g :: r => g.value + groupsValue r

/-- A word of a phrase: no white space and no hyphen in it, at least three
characters, and not beginning with `and`. -/
structure PlainWord (w : List Char) : Prop where
  clean : ∀ c ∈ w, c ≠ ' ' ∧ c ≠ '-' ∧ isSpaceChar c = false
  long : 3 ≤ w.length
  notAnd : w.take 3 ≠ "and".toList

/-- The group `two thousand`. -/
def gTwoThousand : NumGroup := ⟨("two".toList, 2), some ("thousand".toList, 1000)⟩

/-- The group `one hundred`. -/
def gOneHundred : NumGroup := ⟨("one".toList, 1), some ("hundred".toList, 100)⟩

/-- The group `fifty`. -/
def gFifty : NumGroup := ⟨("fifty".toList, 50), none⟩

/-- The group `four`. -/
def gFour : NumGroup := ⟨("four".toList, 4), none⟩

/-- The group `five`. -/
def gFive : NumGroup := ⟨("five".toList, 5), none⟩

/-- The text without its commas. -/
def stripCommas (s : List Char) : List Char := s.filter (fun c => c != ',')

/-- A recognized word in the words of the specification: a number word of the table,
or one of `hundred`, `thousand`, `million`, `dollars`, letter case ignored. -/
def isRecognizedWord (t : List Char) : Bool :=
  (nn.lookup (lowercase t)).isSome ||
    decide (lowercase t ∈ ["hundred".toList, "thousand".toList, "million".toList,
      "dollars".toList])

/-! ## Sessions and `OnMessage` -/

/-- Modelled from the spec: the states of a session, an enumeration declared in
`trivia.h`, which is not part of the sources at hand; the four names that `OnMessage`
uses and the idle state of the specification. -/
inductive trivia_state_t
  | TRIV_ASK_QUESTION
  | TRIV_FIRST_HINT
  | TRIV_SECOND_HINT
  | TRIV_TIME_UP
  | TRIV_IDLE
  deriving DecidableEq

/-- Modelled from the spec: the record `state_t` of `trivia.h`, which is not part of
the sources at hand, with the fields that `OnMessage` reads or writes except
`asktime`, which only feeds a local that is never used. -/
structure state_t where
  gamestate : trivia_state_t
  numquestions : Int
  round : Int
  interval : Int
  curr_answer : List Char
  deriving DecidableEq

/-- The object that `new state_t()` yields once `OnMessage` has set its four fields:
the answer is the empty text. -/
def newState (questions : Int) : state_t :=
  { gamestate := trivia_state_t.TRIV_ASK_QUESTION
    numquestions := questions + 1
    round := 1
    interval := 20
    curr_answer := [] }

/-- What `OnMessage` receives with a message: the cleaned text, the channel, whether
`find_channel` finds the channel, whether the test-mode condition lets the command
through, the size of the list that `fetch_shuffle_list` returns, and the value that
the local `questions`, which is not initialised, holds before the extraction. -/
structure message_create where
  clean_message : List Char
  channel_id : Int
  channel_found : Bool
  test_mode_ok : Bool
  shuffle_list_size : Nat
  stale_questions : Int

/-- The four messages that `OnMessage` sends with `create_message`. -/
inductive reply_t
  | badQuestionCount
  | spoopy
  | started
  | alreadyRunning
  deriving DecidableEq

/-- The effect of `OnMessage`: the map `states` afterwards, the message sent if any,
and the value returned. -/
structure outcome where
  states : Int → Option state_t
  reply : Option reply_t
  result : Bool

/-- The map `states` with the entry of one channel set. -/
def setState (states : Int → Option state_t) (channel_id : Int) (s : state_t) :
    Int → Option state_t :=
  fun ch => if ch = channel_id then some s else states ch

/-- The extraction `stream >> word` of a text: white space is skipped and the
characters up to the next white space are read; the result is the word, empty when
nothing is left, and the rest of the stream. -/
def extractWord (stream : List Char) : List Char × List Char :=
  let t := stream.dropWhile isSpaceChar
  (t.takeWhile (fun c => !isSpaceChar c), t.dropWhile (fun c => !isSpaceChar c))

/-- The states in which `OnMessage` takes a message for an answer. -/
def isAnswerable (g : trivia_state_t) : Bool :=
  g == trivia_state_t.TRIV_ASK_QUESTION || g == trivia_state_t.TRIV_FIRST_HINT
    || g == trivia_state_t.TRIV_SECOND_HINT || g == trivia_state_t.TRIV_TIME_UP

/-- The first half of `OnMessage`: when the channel has a session in an answerable
state, the round is not a multiple of ten and the normalised message passes the answer
test, the round of the session is incremented. -/
def answerStep (states : Int → Option state_t) (channel_id : Int)
    (trivia_message : List Char) : Int → Option state_t :=
  match states channel_id with
  | none => states
  | some state =>
    if isAnswerable state.gamestate then
      if state.round % 10 == 0 then states
      else if answerMatches trivia_message state.curr_answer then
        setState states channel_id { state with round := state.round + 1 }
      else states
    else states

/-- The method `TriviaModule::OnMessage`. -/
def OnMessage (states : Int → Option state_t) (m : message_create) : outcome :=
  let trivia_message := normalizeMessage m.clean_message
  let game_in_progress := (states m.channel_id).isSome
  let states1 := answerStep states m.channel_id trivia_message
  if lowercase (m.clean_message.take 1) == lowercase "!".toList then
    let command := m.clean_message.drop 1
    if m.channel_found then
      if m.test_mode_ok then
        let base_command := extractWord command
        if lowercase base_command.1 == "trivia".toList then
          let subcommand := extractWord base_command.2
          if lowercase subcommand.1 == "start".toList then
            let questions := extractInt subcommand.2 m.stale_questions
            if !game_in_progress then
              if questions < 5 || questions > 200 then
                ⟨states1, some reply_t.badQuestionCount, false⟩
              else if m.shuffle_list_size < 50 then
                ⟨states1, some reply_t.spoopy, false⟩
              else
                ⟨setState states1 m.channel_id (newState questions),
                  some reply_t.started, false⟩
            else ⟨states1, some reply_t.alreadyRunning, false⟩
          else ⟨states1, none, true⟩
        else ⟨states1, none, true⟩
      else ⟨states1, none, true⟩
    else ⟨states1, none, true⟩
  else ⟨states1, none, true⟩

/-! ## What the claims about the commands speak of -/

/-- A message that `OnMessage` takes for the command `trivia start`: it begins with
the command character, and the first two words after it are `trivia` and `start`,
letter case ignored. -/
def isStartCommand (clean_message : List Char) : Bool :=
  lowercase (clean_message.take 1) == lowercase "!".toList
    && lowercase (extractWord (clean_message.drop 1)).1 == "trivia".toList
    && lowercase (extractWord (extractWord (clean_message.drop 1)).2).1 == "start".toList

/-- The number of questions that `OnMessage` reads from a start command. -/
def startCount (clean_message : List Char) (stale : Int) : Int :=
  extractInt (extractWord (extractWord (clean_message.drop 1)).2).2 stale

/-- The map without any session. -/
def noSessions : Int → Option state_t := fun _ => none

/-- A session as the start command creates it, on channel 7, and no other session. -/
def runningSessions : Int → Option state_t := setState noSessions 7 (newState 5)

/-- A start command for channel 7. -/
def startAgain : message_create :=
  ⟨"!trivia start 10".toList, 7, true, true, 60, 0⟩

/-- A text that is empty or begins with white space. -/
def BlankLed (r : List Char) : Prop :=
  r = [] ∨ ∃ c t, r = c :: t ∧ isSpaceChar c = true

/-- A message that `OnMessage` takes for the command `trivia stop`: it begins with
the command character, and the first two words after it are `trivia` and `stop`,
letter case ignored. -/
def isStopCommand (clean_message : List Char) : Bool :=
  lowercase (clean_message.take 1) == lowercase "!".toList
    && lowercase (extractWord (clean_message.drop 1)).1 == "trivia".toList
    && lowercase (extractWord (extractWord (clean_message.drop 1)).2).1 == "stop".toList

/-- A stop command for channel 7. -/
def stopNow : message_create :=
  ⟨"!trivia stop".toList, 7, true, true, 60, 0⟩

/-- The map `states` after a sequence of messages has been processed in turn. -/
def runMessages (states : Int → Option state_t) :
    List message_create → Int → Option state_t
  | [] => states
  | m :: ms => runMessages (OnMessage states m).states ms

/-- A map of sessions that some sequence of messages produces from the empty map. -/
def Reachable (states : Int → Option state_t) : Prop :=
  ∃ ms : List message_create, runMessages noSessions ms = states

/-- A plain message on channel 7 with the given text. -/
def say (text : List Char) : message_create :=
  ⟨text, 7, true, true, 60, 0⟩

/-- A start command for five questions on channel 7, and nothing else. -/
def startedOnce : List message_create := [say "!trivia start 5".toList]

/-- A start command for five questions on channel 7, then six messages `a`. -/
def sixGuesses : List message_create :=
  [say "!trivia start 5".toList, say "a".toList, say "a".toList, say "a".toList,
    say "a".toList, say "a".toList, say "a".toList]

/-- A session in round ten that waits for the answer `cow`, and no other session. -/
def tenthRound : Int → Option state_t :=
  setState noSessions 7
    { gamestate := trivia_state_t.TRIV_ASK_QUESTION, numquestions := 21, round := 10,
      interval := 20, curr_answer := "cow".toList }

/-! ## Hints: `MakeFirstHint`, `dec_to_roman`, `scramble` -/

/-- The method `TriviaModule::is_number`: the text is not empty and no character of it
fails `isdigit`. -/
def is_number (s : List Char) : Bool := !s.isEmpty && s.all Char.isDigit

/-- Arithmetic of an `int64_t`: the value is taken modulo `2^64` into
`[-2^63, 2^63)`. -/
def wrap64 (x : Int) : Int :=
  (x + 9223372036854775808) % 18446744073709551616 - 9223372036854775808

/-- The extraction `stream >> value` of an `int64_t`, as `extractInt` with the bounds
of 64 bits. -/
def extractInt64 (stream : List Char) (old : Int) : Int :=
  let t := stream.dropWhile isSpaceChar
  if t.isEmpty then old
  else
    let negative := t.head? == some '-'
    let body := if t.head? == some '-' || t.head? == some '+' then t.tail else t
    let ds := body.takeWhile Char.isDigit
    if ds.isEmpty then 0
    else
      let v : Int := if negative then -(digitsValue ds : Int) else (digitsValue ds : Int)
      if v > 9223372036854775807 then 9223372036854775807
      else if v < -9223372036854775808 then -9223372036854775808
      else v

/-- Modelled from the spec: `from_string<int64_t>(s, std::dec)` of
`sporks/stringops.h`, which is not part of the sources at hand: the number is
extracted from the front of the text.  `MakeFirstHint` calls it on texts that
`is_number` accepts, which are never blank. -/
def from_string64 (s : List Char) : Int := extractInt64 s 0

/-- The method `TriviaModule::GetNearestNumber`.  The map `numstrs` of `numstrs.h`,
which is not part of the sources at hand, is a parameter: its entries in ascending
order of their keys.  The reverse iteration returns the name of the first entry, from
the largest key down, whose key is at most `number`, and `0` when there is none. -/
def GetNearestNumber (numstrs : List (Int × List Char)) (number : Int) : List Char :=
  match numstrs.reverse.find? (fun x => decide (x.1 ≤ number)) with
  | some x => x.2
  | none => "0".toList

/-- The method `TriviaModule::GetNearestNumberVal`: as `GetNearestNumber`, the result
being the key, and `0` when there is none. -/
def GetNearestNumberVal (numstrs : List (Int × List Char)) (number : Int) : Int :=
  match numstrs.reverse.find? (fun x => decide (x.1 ≤ number)) with
  | some x => x.1
  | none => 0

/-- The method `TriviaModule::numbertoname`: the name of the key `number`, or its
decimal text when the map has no such key. -/
def numbertoname (numstrs : List (Int × List Char)) (number : Int) : List Char :=
  match numstrs.find? (fun x => x.1 == number) with
  | some x => x.2
  | none => to_string number

/-- The `while` loop of `MakeFirstHint` with the locals `n` and `Q`: `fuel` bounds the
number of turns, and `none` is the result when it does not suffice. -/
def hintLoop (numstrs : List (Int × List Char)) : Nat → Int → List Char →
    Option (Int × List Char)
  | 0, n, Q =>
    if GetNearestNumberVal numstrs n != 0 && decide (n > 0) then none else some (n, Q)
  | fuel + 1, n, Q =>
    if GetNearestNumberVal numstrs n != 0 && decide (n > 0) then
      hintLoop numstrs fuel (wrap64 (n - GetNearestNumberVal numstrs n))
        (Q ++ GetNearestNumber numstrs n ++ ", plus ".toList)
    else some (n, Q)

/-- The call `Q.substr(0, Q.length() - 7)`: the length is unsigned, so for a text
shorter than seven characters the count wraps around to a huge number and the whole
text is kept; otherwise the last seven characters are dropped. -/
def dropLastSeven (Q : List Char) : List Char :=
  if Q.length < 7 then Q else Q.take (Q.length - 7)

/-- The end of `MakeFirstHint`: the fallback phrase for an empty `Q`, otherwise `Q`,
followed by `, in DOLLARS` when the flag is set. -/
def hintResult (Q : List Char) (indollars : Bool) : List Char :=
  if Q.isEmpty then "The lowest non-negative number".toList
  else if indollars then Q ++ ", in DOLLARS".toList
  else Q

/-- The method `TriviaModule::MakeFirstHint`, with the map `numstrs` and the fuel of
its loop as parameters. -/
def MakeFirstHint (numstrs : List (Int × List Char)) (fuel : Nat) (s : List Char)
    (indollars : Bool) : Option (List Char) :=
  if is_number s then
    match hintLoop numstrs fuel (from_string64 s) [] with
    | none => none
    | some (n, Q) =>
      let Q1 := if n > 0 then Q ++ numbertoname numstrs n else Q
      some (hintResult (dropLastSeven Q1) indollars)
  else some (hintResult [] indollars)

/-- The vector `numbers` of `dec_to_roman`. -/
def numbers : List Nat := [1, 4, 5, 9, 10, 40, 50, 90, 100, 400, 500, 900, 1000]

/-- The vector `romans` of `dec_to_roman`. -/
def romans : List (List Char) :=
  ["I".toList, "IV".toList, "V".toList, "IX".toList, "X".toList, "XL".toList,
    "L".toList, "XC".toList, "C".toList, "CD".toList, "D".toList, "CM".toList,
    "M".toList]

/-- The `while` loop of `dec_to_roman` for one entry of the vectors, with the locals
`decimal` and `result`; `fuel` bounds the number of turns. -/
def romanWhile (number : Nat) (roman : List Char) : Nat → Nat → List Char →
    Nat × List Char
  | 0, decimal, result => (decimal, result)
  | fuel + 1, decimal, result =>
    if decimal ≥ number then romanWhile number roman fuel (decimal - number) (result ++ roman)
    else (decimal, result)

/-- The `for` loop of `dec_to_roman` from index `x - 1` down to `0`.  The fuel of the
inner loop is the value itself: every entry of `numbers` is at least 1, so the inner
loop takes at most that many turns. -/
def romanFor : Nat → Nat → List Char → List Char
  | 0, _, result => result
  | x + 1, decimal, result =>
    let r := romanWhile (numbers.getD x 0) (romans.getD x []) decimal decimal result
    romanFor x r.1 r.2

/-- The method `TriviaModule::dec_to_roman`. -/
def dec_to_roman (decimal : Nat) : List Char :=
  "Roman numerals: ".toList ++ romanFor 13 decimal []

/-- The three assignments that exchange `str[i]` and `str[j]`. -/
def swapChars (str : List Char) (i j : Nat) : List Char :=
  let tmp := str.getD i ' '
  (str.set i (str.getD j ' ')).set j tmp

/-- The loop of `scramble` from `y` down to `1`: `x` is the length, `rand k` the value
that the `k`-th call of `rand()` returns (a non-negative `int`), and `none` stands for
the undefined remainder `rand() % 0`. -/
def scrambleFrom (rand : Nat → Nat) (x : Nat) : Nat → Nat → List Char →
    Option (List Char)
  | 0, _, str => some str
  | y + 1, k, str =>
    if x = 0 then none
    else scrambleFrom rand x y (k + 1) (swapChars str y (rand k % x))

/-- The method `TriviaModule::scramble`, with the sequence of random values as a
parameter. -/
def scramble (rand : Nat → Nat) (str : List Char) : Option (List Char) :=
  (scrambleFrom rand str.length str.length 0 str).map
    (fun r => "Scrambled answer: ".toList ++ r)

/-! ## What the claims about the hints speak of -/

/-- The invariant of the map `numstrs`: its keys are strictly ascending. -/
def AscendingKeys (numstrs : List (Int × List Char)) : Prop :=
  numstrs.Pairwise (fun a b => a.1 < b.1)

instance (numstrs : List (Int × List Char)) : Decidable (AscendingKeys numstrs) := by
  unfold AscendingKeys; exact inferInstance

/-- The greedy procedure of the specification: `Greedy numstrs n chosen r` says that
subtracting again and again the largest key of the table that is at most the remaining
value, starting from `n`, takes the entries `chosen` in this order and ends with the
remainder `r`, which no key of the table is at most. -/
inductive Greedy (numstrs : List (Int × List Char)) :
    Int → List (Int × List Char) → Int → Prop
  | done (n : Int) : (∀ p ∈ numstrs, n < p.1) → Greedy numstrs n [] n
  | step (n : Int) (p : Int × List Char) (chosen : List (Int × List Char)) (r : Int) :
      p ∈ numstrs → p.1 ≤ n → (∀ q ∈ numstrs, q.1 ≤ n → q.1 ≤ p.1) →
      Greedy numstrs (n - p.1) chosen r → Greedy numstrs n (p :: chosen) r

/-- The names, each followed by `, plus `, as the loop of `MakeFirstHint` appends
them. -/
def withPlus : List (List Char) → List Char
  | [] => []
  | a :: r => a ++ ", plus ".toList ++ withPlus r

/-- The fallback phrase of `MakeFirstHint`. -/
def fallbackPhrase : List Char := "The lowest non-negative number".toList

/-- A small table of names. -/
def smallTable : List (Int × List Char) :=
  [(1, "one".toList), (12, "a dozen".toList), (100, "a hundred".toList)]

/-- A table with one key, named `ten`. -/
def tenTable : List (Int × List Char) := [(10, "ten".toList)]

/-- The numerals of the digits in the four places of a number below 4000. -/
def romanPlaces : List (List (List Char)) :=
  [ ["".toList, "I".toList, "II".toList, "III".toList, "IV".toList, "V".toList,
      "VI".toList, "VII".toList, "VIII".toList, "IX".toList],
    ["".toList, "X".toList, "XX".toList, "XXX".toList, "XL".toList, "L".toList,
      "LX".toList, "LXX".toList, "LXXX".toList, "XC".toList],
    ["".toList, "C".toList, "CC".toList, "CCC".toList, "CD".toList, "D".toList,
      "DC".toList, "DCC".toList, "DCCC".toList, "CM".toList],
    ["".toList, "M".toList, "MM".toList, "MMM".toList] ]

/-- The numeral of the digit `d` in the place `place` (0 for the units). -/
def placeNumeral (place d : Nat) : List Char := (romanPlaces.getD place []).getD d []

/-- The standard Roman numeral in subtractive notation, digit by digit: thousands,
hundreds, tens and units. -/
def standardRoman (n : Nat) : List Char :=
  placeNumeral 3 (n / 1000) ++ placeNumeral 2 (n / 100 % 10)
    ++ placeNumeral 1 (n / 10 % 10) ++ placeNumeral 0 (n % 10)

/-- The value of a Roman digit. -/
def romanDigit (c : Char) : Nat :=
  if c = 'I' then 1 else if c = 'V' then 5 else if c = 'X' then 10
  else if c = 'L' then 50 else if c = 'C' then 100 else if c = 'D' then 500
  else if c = 'M' then 1000 else 0

/-- The value of a Roman numeral: a digit that stands before a greater one is
subtracted, every other digit is added. -/
def romanValue : List Char → Nat
  | [] => 0
  | [c] => romanDigit c
  | c :: d :: rest =>
    if romanDigit c < romanDigit d then romanValue (d :: rest) - romanDigit c
    else romanDigit c + romanValue (d :: rest)

/-- A random source that always returns the same value. -/
def constantRand (v : Nat) : Nat → Nat := fun _ => v


/-- The text `roman` written `k` times. -/
def repeatText (k : Nat) (roman : List Char) : List Char :=
  match k with
  | 0 => []
  | k + 1 => roman ++ repeatText k roman

/-- No subtraction of `romanValue` is cut off at zero within the numeral. -/
def noTruncation : List Char → Bool
  | c :: d :: rest =>
    (if romanDigit c < romanDigit d then decide (romanDigit c ≤ romanValue (d :: rest))
      else true) && noTruncation (d :: rest)
  | _ => true

end Trivia

/-! # Theorems -/

namespace Trivia

/-! ## The table of `levenstein` -/

theorem cellValue_nil_right (s : List Char) : cellValue s [] = s.length := by
  cases s <;> simp [cellValue]

theorem levRowAux_cells (c : Char) (r : List Char) (ys p : List Char) :
    levRowAux c ys (cellValue r p) (cellValue (c :: r) p) (cells r p ys)
      = cells (c :: r) p ys := by
  induction ys generalizing p with
  | nil => simp [levRowAux, cells]
  | cons y ys ih =>
    have hv : (if c = y then cellValue r p
        else 1 + min3 (cellValue (c :: r) p) (cellValue r (y :: p)) (cellValue r p))
        = cellValue (c :: r) (y :: p) := by
      rw [cellValue]
    simp only [cells, levRowAux, hv]
    rw [ih (y :: p)]

theorem levRow_cells (c : Char) (r str2 : List Char) :
    levRow c (r.length + 1) str2 (cellValue r [] :: cells r [] str2)
      = cellValue (c :: r) [] :: cells (c :: r) [] str2 := by
  have h := levRowAux_cells c r str2 []
  rw [cellValue_nil_right] at h ⊢
  rw [cellValue_nil_right] at h ⊢
  simp only [List.length_cons] at h
  simp only [levRow, List.length_cons]
  rw [h]

theorem levTable_cells (cs r str2 : List Char) :
    levTable cs str2 r.length (cellValue r [] :: cells r [] str2)
      = cellValue (cs.reverse ++ r) [] :: cells (cs.reverse ++ r) [] str2 := by
  induction cs generalizing r with
  | nil => simp [levTable]
  | cons c cs ih =>
    simp only [levTable]
    rw [levRow_cells]
    have := ih (c :: r)
    simp only [List.length_cons] at this
    rw [this]
    simp

theorem cells_nil (p ys : List Char) :
    cells [] p ys = List.range' (p.length + 1) ys.length := by
  induction ys generalizing p with
  | nil => simp [cells]
  | cons y ys ih =>
    simp only [cells, List.length_cons, List.range'_succ]
    rw [ih (y :: p)]
    simp [cellValue]

theorem cells_getD (r : List Char) (ys p : List Char) :
    (cellValue r p :: cells r p ys).getD ys.length 0 = cellValue r (ys.reverse ++ p) := by
  induction ys generalizing p with
  | nil => simp [cells]
  | cons y ys ih =>
    simp only [cells, List.length_cons, List.getD_cons_succ]
    rw [ih (y :: p)]
    simp

theorem levenstein_eq_cellValue (a b : List Char) :
    levenstein a b = cellValue (uppercase a).reverse (uppercase b).reverse := by
  unfold levenstein
  simp only
  have h0 : List.range ((uppercase b).length + 1)
      = cellValue [] [] :: cells [] [] (uppercase b) := by
    rw [cells_nil, List.range_eq_range', List.range'_succ]
    simp [cellValue]
  rw [h0]
  have := levTable_cells (uppercase a) [] (uppercase b)
  simp only [List.length_nil, List.append_nil] at this
  rw [this, cells_getD]
  simp


theorem min3_le_left (x y z : Nat) : min3 x y z ≤ x := by unfold min3; omega
theorem min3_le_mid (x y z : Nat) : min3 x y z ≤ y := by unfold min3; omega
theorem min3_le_right (x y z : Nat) : min3 x y z ≤ z := by unfold min3; omega
theorem min3_cases (x y z : Nat) : min3 x y z = x ∨ min3 x y z = y ∨ min3 x y z = z := by
  unfold min3; omega

theorem cellValue_cons_cons (x y : Char) (s t : List Char) :
    cellValue (x :: s) (y :: t) = if x = y then cellValue s t
      else 1 + min3 (cellValue (x :: s) t) (cellValue s (y :: t)) (cellValue s t) := by
  rw [cellValue]

theorem cellValue_nil_left (t : List Char) : cellValue [] t = t.length := by
  simp [cellValue]

/-- Dropping the first character of either text changes the cell by at most one. -/
theorem cellValue_step (k : Nat) : ∀ s t : List Char, s.length + t.length ≤ k →
    (∀ x, cellValue (x :: s) t ≤ cellValue s t + 1) ∧
    (∀ y, cellValue s (y :: t) ≤ cellValue s t + 1) ∧
    (∀ x, cellValue s t ≤ cellValue (x :: s) t + 1) ∧
    (∀ y, cellValue s t ≤ cellValue s (y :: t) + 1) := by
  induction k with
  | zero =>
    intro s t h
    have hs : s = [] := by cases s <;> simp_all
    have ht : t = [] := by cases t <;> simp_all
    subst hs; subst ht
    simp [cellValue]
  | succ k ih =>
    intro s t h
    have up1 : ∀ x, cellValue (x :: s) t ≤ cellValue s t + 1 := by
      intro x
      cases t with
      | nil => simp [cellValue_nil_right]
      | cons y t =>
        rw [cellValue_cons_cons]
        split
        · have := (ih s t (by simp at h; omega)).2.2.2 y
          omega
        · have := min3_le_mid (cellValue (x :: s) t) (cellValue s (y :: t)) (cellValue s t)
          omega
    have up2 : ∀ y, cellValue s (y :: t) ≤ cellValue s t + 1 := by
      intro y
      cases s with
      | nil => simp [cellValue_nil_left]
      | cons x s =>
        rw [cellValue_cons_cons]
        split
        · have := (ih s t (by simp at h; omega)).2.2.1 x
          omega
        · have := min3_le_left (cellValue (x :: s) t) (cellValue s (y :: t)) (cellValue s t)
          omega
    refine ⟨up1, up2, ?_, ?_⟩
    · intro x
      cases t with
      | nil => rw [cellValue_nil_right, cellValue_nil_right]; simp only [List.length_cons]; omega
      | cons y t =>
        rw [cellValue_cons_cons x y]
        have h1 := ih s t (by simp at h; omega)
        have hD := h1.2.1 y
        have hA := h1.2.2.1 x
        split
        · omega
        · rcases min3_cases (cellValue (x :: s) t) (cellValue s (y :: t)) (cellValue s t)
            with e | e | e <;> rw [e] <;> omega
    · intro y
      cases s with
      | nil => rw [cellValue_nil_left, cellValue_nil_left]; simp only [List.length_cons]; omega
      | cons x s =>
        rw [cellValue_cons_cons x y]
        have h1 := ih s t (by simp at h; omega)
        have hC := h1.1 x
        have hB := h1.2.2.2 y
        split
        · omega
        · rcases min3_cases (cellValue (x :: s) t) (cellValue s (y :: t)) (cellValue s t)
            with e | e | e <;> rw [e] <;> omega

theorem cellValue_cons_left_le (x : Char) (s t : List Char) :
    cellValue (x :: s) t ≤ cellValue s t + 1 :=
  (cellValue_step _ s t (Nat.le_refl _)).1 x

theorem cellValue_cons_right_le (y : Char) (s t : List Char) :
    cellValue s (y :: t) ≤ cellValue s t + 1 :=
  (cellValue_step _ s t (Nat.le_refl _)).2.1 y

theorem cellValue_le_cons_left (x : Char) (s t : List Char) :
    cellValue s t ≤ cellValue (x :: s) t + 1 :=
  (cellValue_step _ s t (Nat.le_refl _)).2.2.1 x

theorem cellValue_le_cons_right (y : Char) (s t : List Char) :
    cellValue s t ≤ cellValue s (y :: t) + 1 :=
  (cellValue_step _ s t (Nat.le_refl _)).2.2.2 y

theorem cellValue_cons_cons_le (x y : Char) (s t : List Char) :
    cellValue (x :: s) (y :: t) ≤ cellValue s t + 1 := by
  rw [cellValue_cons_cons]
  split
  · omega
  · have := min3_le_right (cellValue (x :: s) t) (cellValue s (y :: t)) (cellValue s t)
    omega

/-- No script is shorter than the cell. -/
theorem cellValue_le_of_script {s t : List Char} {n : Nat} (h : EditScript s t n) :
    cellValue s t ≤ n := by
  induction h with
  | done => simp [cellValue]
  | keep x _ ih => rw [cellValue_cons_cons, if_pos rfl]; exact ih
  | @substitute x y s t n _ ih => have := cellValue_cons_cons_le x y s t; omega
  | @delete x s t n _ ih => have := cellValue_cons_left_le x s t; omega
  | @insert y s t n _ ih => have := cellValue_cons_right_le y s t; omega

theorem script_insert_all (t : List Char) : EditScript [] t t.length := by
  induction t with
  | nil => exact EditScript.done
  | cons y t ih => exact EditScript.insert y ih

theorem script_delete_all (s : List Char) : EditScript s [] s.length := by
  induction s with
  | nil => exact EditScript.done
  | cons x s ih => exact EditScript.delete x ih

/-- The cell is the length of some script. -/
theorem script_cellValue (k : Nat) : ∀ s t : List Char, s.length + t.length ≤ k →
    EditScript s t (cellValue s t) := by
  induction k with
  | zero =>
    intro s t h
    have hs : s = [] := by cases s <;> simp_all
    have ht : t = [] := by cases t <;> simp_all
    subst hs; subst ht
    simpa [cellValue] using EditScript.done
  | succ k ih =>
    intro s t h
    cases s with
    | nil => rw [cellValue_nil_left]; exact script_insert_all t
    | cons x s =>
      cases t with
      | nil => rw [cellValue_nil_right]; exact script_delete_all (x :: s)
      | cons y t =>
        simp only [List.length_cons] at h
        rw [cellValue_cons_cons]
        split
        · rename_i hxy
          subst hxy
          exact EditScript.keep x (ih s t (by omega))
        · rcases min3_cases (cellValue (x :: s) t) (cellValue s (y :: t)) (cellValue s t)
            with e | e | e <;> rw [e, Nat.add_comm]
          · exact EditScript.insert y (ih (x :: s) t (by simp; omega))
          · exact EditScript.delete x (ih s (y :: t) (by simp; omega))
          · exact EditScript.substitute x y (ih s t (by omega))

theorem script_snoc_keep (x : Char) {s t : List Char} {n : Nat} (h : EditScript s t n) :
    EditScript (s ++ [x]) (t ++ [x]) n := by
  induction h with
  | done => exact EditScript.keep x EditScript.done
  | keep a _ ih => exact EditScript.keep a ih
  | substitute a b _ ih => exact EditScript.substitute a b ih
  | delete a _ ih => exact EditScript.delete a ih
  | insert b _ ih => exact EditScript.insert b ih

theorem script_snoc_substitute (x y : Char) {s t : List Char} {n : Nat}
    (h : EditScript s t n) : EditScript (s ++ [x]) (t ++ [y]) (n + 1) := by
  induction h with
  | done => exact EditScript.substitute x y EditScript.done
  | keep a _ ih => exact EditScript.keep a ih
  | substitute a b _ ih => exact EditScript.substitute a b ih
  | delete a _ ih => exact EditScript.delete a ih
  | insert b _ ih => exact EditScript.insert b ih

theorem script_snoc_delete (x : Char) {s t : List Char} {n : Nat}
    (h : EditScript s t n) : EditScript (s ++ [x]) t (n + 1) := by
  induction h with
  | done => exact EditScript.delete x EditScript.done
  | keep a _ ih => exact EditScript.keep a ih
  | substitute a b _ ih => exact EditScript.substitute a b ih
  | delete a _ ih => exact EditScript.delete a ih
  | insert b _ ih => exact EditScript.insert b ih

theorem script_snoc_insert (y : Char) {s t : List Char} {n : Nat}
    (h : EditScript s t n) : EditScript s (t ++ [y]) (n + 1) := by
  induction h with
  | done => exact EditScript.insert y EditScript.done
  | keep a _ ih => exact EditScript.keep a ih
  | substitute a b _ ih => exact EditScript.substitute a b ih
  | delete a _ ih => exact EditScript.delete a ih
  | insert b _ ih => exact EditScript.insert b ih

theorem script_reverse {s t : List Char} {n : Nat} (h : EditScript s t n) :
    EditScript s.reverse t.reverse n := by
  induction h with
  | done => exact EditScript.done
  | keep a _ ih => simpa using script_snoc_keep a ih
  | substitute a b _ ih => simpa using script_snoc_substitute a b ih
  | delete a _ ih => simpa using script_snoc_delete a ih
  | insert b _ ih => simpa using script_snoc_insert b ih

theorem script_levenstein (a b : List Char) :
    EditScript (uppercase a) (uppercase b) (levenstein a b) := by
  rw [levenstein_eq_cellValue]
  have := script_reverse (script_cellValue _ (uppercase a).reverse (uppercase b).reverse
    (Nat.le_refl _))
  simpa using this

theorem levenstein_le_of_script (a b : List Char) (n : Nat)
    (h : EditScript (uppercase a) (uppercase b) n) : levenstein a b ≤ n := by
  rw [levenstein_eq_cellValue]
  exact cellValue_le_of_script (script_reverse h)



/-! ## Letter case -/

theorem lowercase_length (s : List Char) : (lowercase s).length = s.length := by
  simp [lowercase]

theorem uppercase_length (s : List Char) : (uppercase s).length = s.length := by
  simp [uppercase]

theorem toUpper_toLower (c : Char) : c.toLower.toUpper = c.toUpper := by
  by_cases h : 65 ≤ c.val.toNat ∧ c.val.toNat ≤ 90
  · obtain ⟨h1, h2⟩ := h
    have hc : c = Char.ofNat c.toNat := by simp
    rw [hc]
    have h3 : c.toNat ≤ 90 := h2
    have h4 : 65 ≤ c.toNat := h1
    generalize c.toNat = n at h3 h4
    interval_cases n <;> decide
  · have hc : c.toLower = c := by
      unfold Char.toLower
      simp only [ge_iff_le]
      rw [if_neg]
      simpa [Char.toNat] using h
    rw [hc]

theorem toUpper_toUpper (c : Char) : c.toUpper.toUpper = c.toUpper := by
  by_cases h : 97 ≤ c.val.toNat ∧ c.val.toNat ≤ 122
  · obtain ⟨h1, h2⟩ := h
    have hc : c = Char.ofNat c.toNat := by simp
    rw [hc]
    have h3 : c.toNat ≤ 122 := h2
    have h4 : 97 ≤ c.toNat := h1
    generalize c.toNat = n at h3 h4
    interval_cases n <;> decide
  · have hc : c.toUpper = c := by
      unfold Char.toUpper
      simp only [ge_iff_le]
      rw [if_neg]
      simpa [Char.toNat] using h
    rw [hc, hc]

theorem uppercase_lowercase (s : List Char) : uppercase (lowercase s) = uppercase s := by
  simp [uppercase, lowercase, toUpper_toLower]

theorem uppercase_uppercase (s : List Char) : uppercase (uppercase s) = uppercase s := by
  simp [uppercase, toUpper_toUpper]

theorem uppercase_eq_of_lowercase_eq {s t : List Char} (h : lowercase s = lowercase t) :
    uppercase s = uppercase t := by
  rw [← uppercase_lowercase s, ← uppercase_lowercase t, h]

theorem levenstein_congr {a b c d : List Char} (h1 : uppercase a = uppercase c)
    (h2 : uppercase b = uppercase d) : levenstein a b = levenstein c d := by
  unfold levenstein
  simp only [h1, h2]

/-! ## Scripts of small cost -/

theorem script_refl (s : List Char) : EditScript s s 0 := by
  induction s with
  | nil => exact EditScript.done
  | cons x s ih => exact EditScript.keep x ih

theorem script_length {s t : List Char} {n : Nat} (h : EditScript s t n) :
    s.length ≤ t.length + n ∧ t.length ≤ s.length + n := by
  induction h with
  | done => simp
  | keep x _ ih => simp only [List.length_cons]; omega
  | substitute x y _ ih => simp only [List.length_cons]; omega
  | delete x _ ih => simp only [List.length_cons]; omega
  | insert y _ ih => simp only [List.length_cons]; omega

theorem script_zero {s t : List Char} {n : Nat} (h : EditScript s t n) (hn : n = 0) :
    s = t := by
  induction h with
  | done => rfl
  | keep x _ ih => rw [ih hn]
  | substitute x y _ ih => omega
  | delete x _ ih => omega
  | insert y _ ih => omega

theorem levenstein_eq_zero_of_uppercase_eq {a b : List Char}
    (h : uppercase a = uppercase b) : levenstein a b = 0 := by
  have := levenstein_le_of_script a b 0 (by rw [h]; exact script_refl _)
  omega

/-- Every script between a text and the same text with two neighbouring, different
characters exchanged costs at least two. -/
theorem script_swap_cost (x y : Char) (hxy : x ≠ y) (q : List Char) :
    ∀ (p : List Char) (n : Nat),
      EditScript (p ++ y :: x :: q) (p ++ x :: y :: q) n → 2 ≤ n := by
  intro p
  induction p with
  | nil =>
    intro n h
    simp only [List.nil_append] at h
    cases h with
    | keep _ h1 => exact absurd rfl hxy
    | @substitute _ _ _ _ m h1 =>
      have : m ≠ 0 := fun h0 => hxy (by have := script_zero h1 h0; simp_all)
      omega
    | @delete _ _ _ m h1 =>
      have := (script_length h1).2
      simp only [List.length_cons] at this
      omega
    | @insert _ _ _ m h1 =>
      have := (script_length h1).1
      simp only [List.length_cons] at this
      omega
  | cons c p ih =>
    intro n h
    simp only [List.cons_append] at h
    cases h with
    | keep _ h1 => exact ih _ h1
    | @substitute _ _ _ _ m h1 => have := ih _ h1; omega
    | @delete _ _ _ m h1 =>
      have := (script_length h1).2
      simp only [List.length_cons, List.length_append] at this
      omega
    | @insert _ _ _ m h1 =>
      have := (script_length h1).1
      simp only [List.length_cons, List.length_append] at this
      omega

theorem script_swap (x y : Char) (q p : List Char) :
    EditScript (p ++ y :: x :: q) (p ++ x :: y :: q) 2 := by
  induction p with
  | nil => exact EditScript.substitute y x (EditScript.substitute x y (script_refl q))
  | cons c p ih => exact EditScript.keep c ih

/-! ## The answer test -/

theorem answerMatches_iff (s c : List Char) :
    answerMatches s c = true ↔
      (lowercase s = lowercase c ∨
        (matchDollarDigits c = false ∧ matchDigits c = false ∧ levenstein s c < 2)) := by
  unfold answerMatches
  simp only [Bool.or_eq_true, Bool.and_eq_true, decide_eq_true_eq, Bool.not_eq_true']
  constructor
  · rintro (⟨_, h⟩ | ⟨⟨h1, h2⟩, h3⟩)
    · exact Or.inl h.symm
    · exact Or.inr ⟨h1, h2, h3⟩
  · rintro (h | ⟨h1, h2, h3⟩)
    · refine Or.inl ⟨?_, h.symm⟩
      have := congrArg List.length h
      rw [lowercase_length, lowercase_length] at this
      omega
    · exact Or.inr ⟨⟨h1, h2⟩, h3⟩

theorem not_purelyNumeric {c : List Char} (h : purelyNumeric c = false) :
    matchDollarDigits c = false ∧ matchDigits c = false := by
  unfold purelyNumeric at h
  split at h
  · constructor
    · simp [matchDollarDigits]
    · simp [matchDigits, isDigitChar]
  · simp only [Bool.or_eq_false_iff] at h
    exact ⟨h.2, h.1⟩

theorem levenstein_lt_two_iff (s c : List Char) :
    levenstein s c < 2 ↔ ∃ n, n < 2 ∧ EditScript (uppercase s) (uppercase c) n := by
  constructor
  · intro h
    exact ⟨levenstein s c, h, script_levenstein s c⟩
  · rintro ⟨n, hn, hs⟩
    have := levenstein_le_of_script s c n hs
    omega

/-! ## The claims -/

/-- The part of the rule that the test implements: when the canonical answer is a run
of digits, at least one, optionally after a `$` (the two patterns the test checks), a
submitted text is accepted if and only if it equals the answer after both are
lowercased; the edit distance plays no part. -/
theorem numeric_answer_exact_match (c s : List Char)
    (h : matchDigits c = true ∨ matchDollarDigits c = true) :
    answerMatches s c = true ↔ lowercase s = lowercase c := by
  rw [answerMatches_iff]
  constructor
  · rintro (h1 | ⟨h1, h2, _⟩)
    · exact h1
    · rcases h with h | h
      · rw [h] at h2; cases h2
      · rw [h] at h1; cases h1
  · exact Or.inl

/-- An answer with a leading `-` accepts the text without the `-`: neither pattern of
the test matches the answer, and one insertion turns the one text into the other. -/
theorem minus_answer_accepts_unsigned (d : List Char) :
    answerMatches d ('-' :: d) = true := by
  rw [answerMatches_iff]
  refine Or.inr ⟨by simp [matchDollarDigits], by simp [matchDigits, isDigitChar], ?_⟩
  have h : EditScript (uppercase d) (uppercase ('-' :: d)) 1 :=
    EditScript.insert '-' (script_refl (uppercase d))
  have := levenstein_le_of_script d ('-' :: d) 1 h
  omega

set_option maxRecDepth 100000 in
/-- C1, the code at the failing input: the answer `-5` is purely numeric, a run of
digits with a leading `-`, which the pattern `number_tidy_negative` of the same module
takes for a number, yet the answer test accepts the submitted `-6` and the submitted
`5`, neither of which equals `-5` after lowercasing; every answer with a leading `-`
accepts the text without the `-` in this way.  For an answer that is a run of digits,
optionally after a `$`, the test does what the claim says: a text is accepted if and
only if it equals the answer after lowercasing, so that `42` accepts `42` and rejects
`43`. -/
theorem negative_answer_tolerance :
    purelyNumeric "-5".toList = true ∧
    number_tidy_negative "-5".toList = true ∧
    answerMatches "-6".toList "-5".toList = true ∧
    lowercase "-6".toList ≠ lowercase "-5".toList ∧
    answerMatches "5".toList "-5".toList = true ∧
    lowercase "5".toList ≠ lowercase "-5".toList ∧
    (∀ d : List Char, answerMatches d ('-' :: d) = true) ∧
    (∀ c s : List Char, matchDigits c = true ∨ matchDollarDigits c = true →
      (answerMatches s c = true ↔ lowercase s = lowercase c)) ∧
    answerMatches "42".toList "42".toList = true ∧
    answerMatches "43".toList "42".toList = false :=
  ⟨by decide, by decide, by decide, by decide, by decide, by decide,
    minus_answer_accepts_unsigned, fun c s h => numeric_answer_exact_match c s h,
    by decide, by decide⟩

/-- C2: when the canonical answer is not purely numeric, a submitted text is accepted
if and only if the two are equal ignoring case or some script of fewer than two
single-character edits turns the one into the other ignoring case. -/
theorem text_answer_fuzzy_match (c s : List Char) (h : purelyNumeric c = false) :
    answerMatches s c = true ↔
      (lowercase s = lowercase c ∨
        ∃ n, n < 2 ∧ EditScript (uppercase s) (uppercase c) n) := by
  obtain ⟨h1, h2⟩ := not_purelyNumeric h
  rw [answerMatches_iff, levenstein_lt_two_iff]
  simp [h1, h2]

/-- C2, witness: the answer `cow` accepts `cow` and rejects `goat`. -/
theorem text_answer_fuzzy_match_witness :
    purelyNumeric "cow".toList = false ∧
    answerMatches "cow".toList "cow".toList = true ∧
    answerMatches "goat".toList "cow".toList = false ∧
    (answerMatches "goat".toList "cow".toList = true ↔
      (lowercase "goat".toList = lowercase "cow".toList ∨
        ∃ n, n < 2 ∧ EditScript (uppercase "goat".toList) (uppercase "cow".toList) n)) :=
  ⟨by decide, by decide, by decide,
    text_answer_fuzzy_match "cow".toList "goat".toList (by decide)⟩

/-- C3, as amended: a submission obtained from any canonical answer by exchanging two
neighbouring characters that differ ignoring case is at distance two from it and is
rejected. -/
theorem swapped_answer_rejected (p q : List Char) (x y : Char)
    (hxy : x.toUpper ≠ y.toUpper) :
    levenstein (p ++ y :: x :: q) (p ++ x :: y :: q) = 2 ∧
      answerMatches (p ++ y :: x :: q) (p ++ x :: y :: q) = false := by
  have hup : ∀ a b : Char, uppercase (p ++ a :: b :: q)
      = uppercase p ++ a.toUpper :: b.toUpper :: uppercase q := by
    intro a b; simp [uppercase]
  have hlow : 2 ≤ levenstein (p ++ y :: x :: q) (p ++ x :: y :: q) := by
    have h := script_levenstein (p ++ y :: x :: q) (p ++ x :: y :: q)
    rw [hup, hup] at h
    exact script_swap_cost _ _ hxy _ _ _ h
  have hhigh : levenstein (p ++ y :: x :: q) (p ++ x :: y :: q) ≤ 2 := by
    apply levenstein_le_of_script
    rw [hup, hup]
    exact script_swap _ _ _ _
  refine ⟨by omega, ?_⟩
  rw [Bool.eq_false_iff]
  intro hm
  rw [answerMatches_iff] at hm
  rcases hm with hm | ⟨_, _, hm⟩
  · have := levenstein_eq_zero_of_uppercase_eq (uppercase_eq_of_lowercase_eq hm)
    omega
  · omega

/-- C3, witness: `cwo` against the answer `cow`. -/
theorem swapped_answer_rejected_witness :
    'o'.toUpper ≠ 'w'.toUpper ∧
    levenstein ("c".toList ++ 'w' :: 'o' :: []) ("c".toList ++ 'o' :: 'w' :: []) = 2 ∧
      answerMatches ("c".toList ++ 'w' :: 'o' :: []) ("c".toList ++ 'o' :: 'w' :: [])
        = false :=
  ⟨by decide, swapped_answer_rejected "c".toList [] 'o' 'w' (by decide)⟩

/-- C3, as stated, fails: against the answer `cow`, which is not numeric, the
submitted `cwo` is at distance two, not one, and is rejected. -/
theorem swapped_cow_counterexample :
    purelyNumeric "cow".toList = false ∧
    levenstein "cwo".toList "cow".toList = 2 ∧
    answerMatches "cwo".toList "cow".toList = false := by
  decide

set_option maxRecDepth 100000 in
/-- C4: `levenstein a b` is the cost of some script of single-character insertions,
deletions and substitutions that turns the case-folded `a` into the case-folded `b`,
and no such script costs less; so the result does not change when either argument is
replaced by a text that differs from it in letter case only; on the two texts of the
self-test the results are 1 and 2. -/
theorem levenstein_is_minimal_edit_cost :
    (∀ a b : List Char,
      EditScript (uppercase a) (uppercase b) (levenstein a b) ∧
      (∀ n, EditScript (uppercase a) (uppercase b) n → levenstein a b ≤ n)) ∧
    (∀ a b c d : List Char, uppercase a = uppercase c → uppercase b = uppercase d →
      levenstein a b = levenstein c d) ∧
    (∀ a b : List Char, levenstein (lowercase a) b = levenstein a b ∧
      levenstein (uppercase a) b = levenstein a b ∧
      levenstein a (lowercase b) = levenstein a b ∧
      levenstein a (uppercase b) = levenstein a b) ∧
    levenstein "Cows".toList "coWz".toList = 1 ∧
    levenstein "a herd of cows".toList "a herd of wocs".toList = 2 := by
  refine ⟨fun a b => ⟨script_levenstein a b, levenstein_le_of_script a b⟩,
    fun a b c d h1 h2 => levenstein_congr h1 h2, fun a b => ⟨?_, ?_, ?_, ?_⟩,
    by decide, by decide⟩
  · exact levenstein_congr (uppercase_lowercase a) rfl
  · exact levenstein_congr (uppercase_uppercase a) rfl
  · exact levenstein_congr rfl (uppercase_lowercase b)
  · exact levenstein_congr rfl (uppercase_uppercase b)


/-! ## Spelled numbers -/

theorem phraseRest_eq (gs : List (Bool × NumGroup)) :
    phraseRest gs = wordsText (flatRest gs) := by
  induction gs with
  | nil => rfl
  | cons p r ih =>
    obtain ⟨b, g⟩ := p
    simp only [phraseRest, flatRest, ih, wordsText, NumGroup.text, scalePart]
    cases g.scale <;> simp [wordsText, separator]

theorem phraseText_eq (g0 : NumGroup) (gs : List (Bool × NumGroup)) :
    phraseText g0 gs = g0.unit.1 ++ wordsText (scalePart g0 ++ flatRest gs) := by
  simp only [phraseText, phraseRest_eq, NumGroup.text, scalePart]
  cases g0.scale <;> simp [wordsText, separator]

theorem vocabulary_facts : ∀ w ∈ vocabulary,
    (w.all (fun c => !isSpaceChar c && c != '-' && c != ' ') = true) ∧ 3 ≤ w.length ∧
    w.take 3 ≠ "and".toList ∧ lowercase w = w ∧ isUnknownWord w = false ∧
    matchCaseless "dollars".toList w = false := by
  decide

theorem nn_facts : ∀ p ∈ nn, nn.lookup p.1 = some p.2 ∧ matchScale p.1 = false ∧
    1 ≤ p.2 ∧ p.2 ≤ 90 := by
  decide

theorem scale_facts : ∀ p ∈ scaleWords, nn.lookup p.1 = none ∧ matchScale p.1 = true ∧
    (p.2 = 100 ∨ p.2 = 1000 ∨ p.2 = 1000000) ∧
    (matchCaseless "hundred".toList p.1 = true ↔ p.2 = 100) ∧
    (matchCaseless "thousand".toList p.1 = true ↔ p.2 = 1000) ∧
    (matchCaseless "million".toList p.1 = true ↔ p.2 = 1000000) := by
  decide

/-! ### Replacement over a phrase -/

theorem replaceFrom_miss (search rep : List Char) (c : Char) (cs : List Char)
    (h : search.isPrefixOf (c :: cs) = false) :
    replaceFrom search rep (c :: cs) 0 = c :: replaceFrom search rep cs 0 := by
  rw [replaceFrom, if_neg (by simp [h])]

theorem replaceFrom_hit (search rep : List Char) (c : Char) (cs : List Char)
    (h : search.isPrefixOf (c :: cs) = true) :
    replaceFrom search rep (c :: cs) 0
      = rep ++ replaceFrom search rep cs (search.length - 1) := by
  rw [replaceFrom, if_pos h]

theorem replaceFrom_skip (search rep : List Char) (pre r : List Char) :
    replaceFrom search rep (pre ++ r) pre.length = replaceFrom search rep r 0 := by
  induction pre with
  | nil => rfl
  | cons c pre ih => simpa [replaceFrom] using ih

theorem isPrefixOf_cons_ne (hd c : Char) (tl cs : List Char) (h : c ≠ hd) :
    (hd :: tl).isPrefixOf (c :: cs) = false := by
  have : (hd == c) = false := by
    rw [beq_eq_false_iff_ne]; exact fun e => h e.symm
  simp [List.isPrefixOf, this]

theorem replaceFrom_word (hd : Char) (tl rep : List Char) (w r : List Char)
    (h : ∀ c ∈ w, c ≠ hd) :
    replaceFrom (hd :: tl) rep (w ++ r) 0 = w ++ replaceFrom (hd :: tl) rep r 0 := by
  induction w with
  | nil => rfl
  | cons c w ih =>
    rw [List.cons_append, replaceFrom_miss _ _ _ _
      (isPrefixOf_cons_ne hd c tl _ (h c (List.mem_cons_self _ _))),
      ih (fun d hd => h d (List.mem_cons_of_mem _ hd))]
    rfl

theorem replaceFrom_absent (hd : Char) (tl rep : List Char) (s : List Char)
    (h : ∀ c ∈ s, c ≠ hd) : replaceFrom (hd :: tl) rep s 0 = s := by
  have := replaceFrom_word hd tl rep s [] h
  simpa [replaceFrom] using this

theorem plainWord_of_vocabulary {w : List Char} (h : w ∈ vocabulary) : PlainWord w := by
  obtain ⟨h1, h2, h3, _⟩ := vocabulary_facts w h
  refine ⟨?_, h2, h3⟩
  intro c hc
  have := List.all_eq_true.mp h1 c hc
  simp only [Bool.and_eq_true, Bool.not_eq_true', bne_iff_ne, ne_eq] at this
  exact ⟨this.2, this.1.2, this.1.1⟩

theorem PlainWord.exists_cons {w : List Char} (h : PlainWord w) :
    ∃ c w', w = c :: w' ∧ c ≠ ' ' := by
  cases w with
  | nil => have := h.long; simp at this
  | cons c w' => exact ⟨c, w', rfl, (h.clean c (List.mem_cons_self _ _)).1⟩

/-- Collapsing double blanks passes over a blank followed by a word. -/
theorem replace_spaces_blank_word (w rest : List Char) (hne : w ≠ [])
    (hw : ∀ c ∈ w, c ≠ ' ') :
    replaceFrom [' ', ' '] [' '] (' ' :: (w ++ rest)) 0
      = ' ' :: (w ++ replaceFrom [' ', ' '] [' '] rest 0) := by
  cases w with
  | nil => exact absurd rfl hne
  | cons c w' =>
    have hc : c ≠ ' ' := hw c (List.mem_cons_self _ _)
    have hmiss : [' ', ' '].isPrefixOf (' ' :: (c :: w' ++ rest)) = false := by
      have : (' ' == c) = false := by
        rw [beq_eq_false_iff_ne]; exact fun e => hc e.symm
      simp [List.isPrefixOf, this]
    rw [replaceFrom_miss _ _ _ _ hmiss, replaceFrom_word ' ' [' '] [' '] _ _ hw]

theorem replace_spaces_wordsText (L : List (Bool × List Char))
    (hL : ∀ p ∈ L, PlainWord p.2) :
    replaceFrom [' ', ' '] [' '] (wordsText L) 0 = wordsText L := by
  induction L with
  | nil => rfl
  | cons p r ih =>
    obtain ⟨b, w⟩ := p
    have hw : PlainWord w := hL (b, w) (List.mem_cons_self _ _)
    have hr := ih (fun q hq => hL q (List.mem_cons_of_mem _ hq))
    obtain ⟨c, w', hcw, hc⟩ := hw.exists_cons
    have hne : w ≠ [] := by rw [hcw]; simp
    have hclean : ∀ d ∈ w, d ≠ ' ' := fun d hd => (hw.clean d hd).1
    cases b
    · have e : wordsText ((false, w) :: r) = ' ' :: (w ++ wordsText r) := by
        simp [wordsText, separator]
      rw [e, replace_spaces_blank_word w _ hne hclean, hr]
    · have e : wordsText ((true, w) :: r)
          = ' ' :: (['a', 'n', 'd'] ++ (' ' :: (w ++ wordsText r))) := by
        simp [wordsText, separator]
      rw [e, replace_spaces_blank_word ['a', 'n', 'd'] _ (by simp) (by decide),
        replace_spaces_blank_word w _ hne hclean, hr]

theorem wordsText_no_hyphen (L : List (Bool × List Char))
    (hL : ∀ p ∈ L, PlainWord p.2) : ∀ c ∈ wordsText L, c ≠ '-' := by
  induction L with
  | nil => intro c hc; simp [wordsText] at hc
  | cons p r ih =>
    obtain ⟨b, w⟩ := p
    have hw : PlainWord w := hL (b, w) (List.mem_cons_self _ _)
    have hr := ih (fun q hq => hL q (List.mem_cons_of_mem _ hq))
    intro c hc
    simp only [wordsText, List.mem_append] at hc
    rcases hc with (hc | hc) | hc
    · cases b
      · simp [separator] at hc; rw [hc]; decide
      · simp [separator] at hc
        rcases hc with h | h | h | h | h <;> rw [h] <;> decide
    · exact (hw.clean c hc).2.1
    · exact hr c hc

/-- Collapsing ` and ` turns either separator before a word into one blank. -/
theorem replace_and_separator_word (b : Bool) (w rest : List Char) (hw : PlainWord w) :
    replaceFrom [' ', 'a', 'n', 'd', ' '] [' '] (separator b ++ (w ++ rest)) 0
      = ' ' :: (w ++ replaceFrom [' ', 'a', 'n', 'd', ' '] [' '] rest 0) := by
  have hclean : ∀ d ∈ w, d ≠ ' ' := fun d hd => (hw.clean d hd).1
  cases b
  · have e : separator false ++ (w ++ rest) = ' ' :: (w ++ rest) := by simp [separator]
    have hmiss : [' ', 'a', 'n', 'd', ' '].isPrefixOf (' ' :: (w ++ rest)) = false := by
      have h3 := hw.long
      have hn := hw.notAnd
      match w, h3, hn with
      | c1 :: c2 :: c3 :: w'', _, hn =>
        simp only [List.take, List.cons_append, List.isPrefixOf, beq_self_eq_true,
          Bool.true_and]
        by_contra hcon
        simp only [Bool.not_eq_false, Bool.and_eq_true, beq_iff_eq] at hcon
        apply hn
        simp [← hcon.1, ← hcon.2.1, ← hcon.2.2.1]
    rw [e, replaceFrom_miss _ _ _ _ hmiss, replaceFrom_word ' ' _ [' '] _ _ hclean]
  · have e : separator true ++ (w ++ rest)
        = ' ' :: (['a', 'n', 'd', ' '] ++ (w ++ rest)) := by simp [separator]
    have hhit : [' ', 'a', 'n', 'd', ' '].isPrefixOf
        (' ' :: (['a', 'n', 'd', ' '] ++ (w ++ rest))) = true := by
      simp [List.isPrefixOf]
    rw [e, replaceFrom_hit _ _ _ _ hhit]
    have := replaceFrom_skip [' ', 'a', 'n', 'd', ' '] [' '] ['a', 'n', 'd', ' '] (w ++ rest)
    simp only [List.length_cons, List.length_nil] at this ⊢
    rw [this, replaceFrom_word ' ' _ [' '] _ _ hclean]
    rfl

theorem replace_and_wordsText (L : List (Bool × List Char))
    (hL : ∀ p ∈ L, PlainWord p.2) :
    replaceFrom [' ', 'a', 'n', 'd', ' '] [' '] (wordsText L) 0
      = wordsText (L.map (fun p => (false, p.2))) := by
  induction L with
  | nil => rfl
  | cons p r ih =>
    obtain ⟨b, w⟩ := p
    have hw : PlainWord w := hL (b, w) (List.mem_cons_self _ _)
    have hr := ih (fun q hq => hL q (List.mem_cons_of_mem _ hq))
    have e : wordsText ((b, w) :: r) = separator b ++ (w ++ wordsText r) := by
      simp [wordsText]
    rw [e, replace_and_separator_word b w _ hw, hr]
    simp [wordsText, separator]

/-! ### Splitting a phrase into words -/

theorem extractWords_word (w r cur : List Char) (hw : ∀ c ∈ w, isSpaceChar c = false) :
    extractWords (w ++ r) cur = extractWords r (w.reverse ++ cur) := by
  induction w generalizing cur with
  | nil => rfl
  | cons c w ih =>
    have hc := hw c (List.mem_cons_self _ _)
    rw [List.cons_append, extractWords, if_neg (by simp [hc]),
      ih _ (fun d hd => hw d (List.mem_cons_of_mem _ hd))]
    simp

theorem extractWords_wordsText (L : List (Bool × List Char))
    (hL : ∀ p ∈ L, PlainWord p.2) (cur : List Char) (hcur : cur ≠ []) :
    extractWords (wordsText (L.map (fun p => (false, p.2)))) cur
      = cur.reverse :: L.map Prod.snd := by
  induction L generalizing cur with
  | nil => simp [wordsText, extractWords, hcur]
  | cons p r ih =>
    obtain ⟨b, w⟩ := p
    have hw : PlainWord w := hL (b, w) (List.mem_cons_self _ _)
    obtain ⟨c, w', hcw, _⟩ := hw.exists_cons
    have hne : w.reverse ++ [] ≠ [] := by rw [hcw]; simp
    have e : wordsText (((b, w) :: r).map (fun p => (false, p.2)))
        = ' ' :: (w ++ wordsText (r.map (fun p => (false, p.2)))) := by
      simp [wordsText, separator]
    rw [e, extractWords, if_pos (by decide), if_neg (by simp [hcur]),
      extractWords_word _ _ _ (fun d hd => (hw.clean d hd).2.2),
      ih (fun q hq => hL q (List.mem_cons_of_mem _ hq)) _ hne]
    simp

/-! ### The loop over the words -/

theorem wrap32_of_fits (x : Int) (h0 : 0 ≤ x) (h1 : x < 2147483648) : wrap32 x = x := by
  unfold wrap32; omega

theorem unit_mem_vocabulary {p : List Char × Int} (h : p ∈ nn) : p.1 ∈ vocabulary := by
  unfold vocabulary
  exact List.mem_append_left _ (List.mem_map_of_mem _ h)

theorem scale_mem_vocabulary {p : List Char × Int} (h : p ∈ scaleWords) :
    p.1 ∈ vocabulary := by
  unfold vocabulary
  exact List.mem_append_right _ (List.mem_map_of_mem _ h)

theorem NumGroup.value_bounds (g : NumGroup) (hg : g.wellFormed) :
    1 ≤ g.value ∧ g.value ≤ 90000000 := by
  obtain ⟨hu, hs⟩ := hg
  obtain ⟨_, _, h1, h2⟩ := nn_facts _ hu
  unfold NumGroup.value
  cases hsc : g.scale with
  | none => simp only; omega
  | some s =>
    obtain ⟨_, _, h3, _⟩ := scale_facts _ (hs s hsc)
    simp only
    rcases h3 with h3 | h3 | h3 <;> rw [h3] <;> omega

theorem convLoop_unit (p : List Char × Int) (hp : p ∈ nn) (T : List (List Char))
    (init : Int) (cur : List Char) :
    convLoop (p.1 :: T) 0 init cur =
      if !matchScale (T.headD []) then convLoop T 0 (wrap32 (init + p.2)) cur
      else if matchCaseless "hundred".toList (T.headD []) then
        convLoop T 0 (wrap32 (init + wrap32 (p.2 * 100))) cur
      else if matchCaseless "thousand".toList (T.headD []) then
        convLoop T 0 (wrap32 (init + wrap32 (p.2 * 1000))) cur
      else if matchCaseless "million".toList (T.headD []) then
        convLoop T 0 (wrap32 (init + wrap32 (p.2 * 1000000))) cur
      else convLoop T p.2 init cur := by
  obtain ⟨_, _, _, hl, _, hd⟩ := vocabulary_facts _ (unit_mem_vocabulary hp)
  obtain ⟨hlook, _⟩ := nn_facts _ hp
  rw [convLoop]
  simp only [hl, hlook, hd, Bool.false_eq_true, if_false]

theorem convLoop_scale (p : List Char × Int) (hp : p ∈ scaleWords) (T : List (List Char))
    (hT : matchScale (T.headD []) = false) (init : Int) (cur : List Char) :
    convLoop (p.1 :: T) 0 init cur = convLoop T 0 (wrap32 (init + 0)) cur := by
  obtain ⟨_, _, _, hl, _, hd⟩ := vocabulary_facts _ (scale_mem_vocabulary hp)
  obtain ⟨hlook, _⟩ := scale_facts _ hp
  rw [convLoop]
  simp only [hl, hlook, hd, hT, Bool.false_eq_true, if_false, Bool.not_false, if_true]

theorem convLoop_group (g : NumGroup) (hg : g.wellFormed) (T : List (List Char))
    (hT : matchScale (T.headD []) = false) (init : Int) (cur : List Char)
    (h0 : 0 ≤ init) (h1 : init + g.value < 2147483648) :
    convLoop (groupWords g ++ T) 0 init cur = convLoop T 0 (init + g.value) cur := by
  obtain ⟨hu, hs⟩ := hg
  obtain ⟨_, _, hv1, hv2⟩ := nn_facts _ hu
  unfold NumGroup.value at h1
  unfold groupWords NumGroup.value
  cases hsc : g.scale with
  | none =>
    rw [hsc] at h1
    simp only [Int.mul_one] at h1 ⊢
    rw [List.singleton_append, convLoop_unit _ hu, hT]
    simp only [Bool.not_false, if_true]
    rw [wrap32_of_fits _ (by omega) h1]
  | some s =>
    rw [hsc] at h1
    simp only at h1 ⊢
    have hsm := hs s hsc
    obtain ⟨_, hm, hval, hh, ht, hmi⟩ := scale_facts _ hsm
    rw [show [g.unit.1, s.1] ++ T = g.unit.1 :: s.1 :: T from rfl, convLoop_unit _ hu]
    simp only [List.headD_cons, hm, Bool.not_true, Bool.false_eq_true, if_false]
    rcases hval with e | e | e
    · rw [if_pos (hh.mpr e), convLoop_scale _ hsm _ hT]
      rw [e] at h1 ⊢
      rw [wrap32_of_fits (g.unit.2 * 100) (by omega) (by omega),
        wrap32_of_fits _ (by omega) h1, Int.add_zero, wrap32_of_fits _ (by omega) h1]
    · have nh : ¬ matchCaseless "hundred".toList s.1 = true := fun h => by
        have := hh.mp h; omega
      rw [if_neg nh, if_pos (ht.mpr e), convLoop_scale _ hsm _ hT]
      rw [e] at h1 ⊢
      rw [wrap32_of_fits (g.unit.2 * 1000) (by omega) (by omega),
        wrap32_of_fits _ (by omega) h1, Int.add_zero, wrap32_of_fits _ (by omega) h1]
    · have nh : ¬ matchCaseless "hundred".toList s.1 = true := fun h => by
        have := hh.mp h; omega
      have nt : ¬ matchCaseless "thousand".toList s.1 = true := fun h => by
        have := ht.mp h; omega
      rw [if_neg nh, if_neg nt, if_pos (hmi.mpr e), convLoop_scale _ hsm _ hT]
      rw [e] at h1 ⊢
      rw [wrap32_of_fits (g.unit.2 * 1000000) (by omega) (by omega),
        wrap32_of_fits _ (by omega) h1, Int.add_zero, wrap32_of_fits _ (by omega) h1]

theorem groupsWords_head (G : List NumGroup) (hG : ∀ g ∈ G, g.wellFormed) :
    matchScale ((groupsWords G).headD []) = false := by
  cases G with
  | nil => decide
  | cons g r =>
    have := (hG g (List.mem_cons_self _ _)).1
    simp only [groupsWords, groupWords, List.cons_append, List.headD_cons]
    exact (nn_facts _ this).2.1

theorem groupsValue_nonneg (G : List NumGroup) (hG : ∀ g ∈ G, g.wellFormed) :
    0 ≤ groupsValue G := by
  induction G with
  | nil => simp [groupsValue]
  | cons g r ih =>
    have := (g.value_bounds (hG g (List.mem_cons_self _ _))).1
    have := ih (fun q hq => hG q (List.mem_cons_of_mem _ hq))
    simp only [groupsValue]
    omega

theorem convLoop_groups (G : List NumGroup) (hG : ∀ g ∈ G, g.wellFormed)
    (init : Int) (cur : List Char) (h0 : 0 ≤ init)
    (h1 : init + groupsValue G < 2147483648) :
    convLoop (groupsWords G) 0 init cur = (init + groupsValue G, cur) := by
  induction G generalizing init with
  | nil => simp [groupsWords, groupsValue, convLoop]
  | cons g r ih =>
    have hg := hG g (List.mem_cons_self _ _)
    have hr : ∀ q ∈ r, q.wellFormed := fun q hq => hG q (List.mem_cons_of_mem _ hq)
    have hv := (g.value_bounds hg).1
    have hn := groupsValue_nonneg r hr
    simp only [groupsWords, groupsValue] at h1 ⊢
    rw [convLoop_group g hg _ (groupsWords_head r hr) init cur h0 (by omega),
      ih hr (init + g.value) (by omega) (by omega)]
    simp [Int.add_assoc]

/-- On a text of plain words joined by blanks or ` and `, `conv_num` works on exactly
those words. -/
theorem conv_num_words (w0 : List Char) (L : List (Bool × List Char))
    (hw0 : PlainWord w0) (hL : ∀ p ∈ L, PlainWord p.2) :
    conv_num (w0 ++ wordsText L) =
      if (w0 :: L.map Prod.snd).any isUnknownWord then "0".toList
      else (convLoop (w0 :: L.map Prod.snd) 0 0 []).2
        ++ to_string (convLoop (w0 :: L.map Prod.snd) 0 0 []).1 := by
  obtain ⟨c, w', hcw, _⟩ := hw0.exists_cons
  have hne : (w0 ++ wordsText L).isEmpty = false := by rw [hcw]; rfl
  have hsp : ∀ d ∈ w0, d ≠ ' ' := fun d hd => (hw0.clean d hd).1
  have h1 : ReplaceString (w0 ++ wordsText L) "  ".toList " ".toList
      = w0 ++ wordsText L := by
    show replaceFrom [' ', ' '] [' '] (w0 ++ wordsText L) 0 = _
    rw [replaceFrom_word ' ' _ _ _ _ hsp, replace_spaces_wordsText L hL]
  have h2 : ReplaceString (w0 ++ wordsText L) "-".toList [] = w0 ++ wordsText L := by
    show replaceFrom ['-'] [] (w0 ++ wordsText L) 0 = _
    apply replaceFrom_absent
    intro d hd
    rcases List.mem_append.mp hd with h | h
    · exact (hw0.clean d h).2.1
    · exact wordsText_no_hyphen L hL d h
  have h3 : ReplaceString (w0 ++ wordsText L) " and ".toList " ".toList
      = w0 ++ wordsText (L.map (fun p => (false, p.2))) := by
    show replaceFrom [' ', 'a', 'n', 'd', ' '] [' '] (w0 ++ wordsText L) 0 = _
    rw [replaceFrom_word ' ' _ _ _ _ hsp, replace_and_wordsText L hL]
  have h4 : extractWords (w0 ++ wordsText (L.map (fun p => (false, p.2)))) []
      = w0 :: L.map Prod.snd := by
    rw [extractWords_word _ _ _ (fun d hd => (hw0.clean d hd).2.2),
      extractWords_wordsText L hL _ (by rw [hcw]; simp)]
    simp
  unfold conv_num numWords
  simp only [hne, Bool.false_eq_true, if_false, h1, h2, h3, h4]

theorem flatRest_plain (gs : List (Bool × NumGroup)) (hs : ∀ p ∈ gs, p.2.wellFormed) :
    ∀ p ∈ flatRest gs, p.2 ∈ vocabulary := by
  induction gs with
  | nil => intro p hp; simp [flatRest] at hp
  | cons q r ih =>
    obtain ⟨b, g⟩ := q
    have hg : g.wellFormed := hs (b, g) (List.mem_cons_self _ _)
    intro p hp
    have hp2 : p = (b, g.unit.1) ∨ p ∈ scalePart g ∨ p ∈ flatRest r := by
      rcases List.mem_cons.mp hp with h | h
      · exact Or.inl h
      · exact Or.inr (List.mem_append.mp h)
    rcases hp2 with hp | hp | hp
    · rw [hp]; exact unit_mem_vocabulary hg.1
    · unfold scalePart at hp
      cases hsc : g.scale with
      | none => rw [hsc] at hp; simp at hp
      | some s =>
        rw [hsc] at hp
        simp only [List.mem_singleton] at hp
        rw [hp]
        exact scale_mem_vocabulary (hg.2 s hsc)
    · exact ih (fun q hq => hs q (List.mem_cons_of_mem _ hq)) p hp

theorem flatRest_words (gs : List (Bool × NumGroup)) :
    (flatRest gs).map Prod.snd = groupsWords (gs.map Prod.snd) := by
  induction gs with
  | nil => rfl
  | cons q r ih =>
    obtain ⟨b, g⟩ := q
    simp only [flatRest, List.map_cons, List.map_append, ih, groupsWords, groupWords,
      scalePart]
    cases g.scale <;> simp

theorem groupsValue_map (gs : List (Bool × NumGroup)) :
    groupsValue (gs.map Prod.snd) = (gs.map (fun p => p.2.value)).sum := by
  induction gs with
  | nil => rfl
  | cons q r ih => simp [groupsValue, ih]

theorem groupsWords_vocabulary (G : List NumGroup) (hG : ∀ g ∈ G, g.wellFormed) :
    ∀ w ∈ groupsWords G, w ∈ vocabulary := by
  induction G with
  | nil => intro w hw; simp [groupsWords] at hw
  | cons g r ih =>
    have hg := hG g (List.mem_cons_self _ _)
    intro w hw
    simp only [groupsWords, groupWords, List.cons_append, List.mem_cons,
      List.mem_append] at hw
    rcases hw with hw | hw | hw
    · rw [hw]; exact unit_mem_vocabulary hg.1
    · cases hsc : g.scale with
      | none => rw [hsc] at hw; simp at hw
      | some s =>
        rw [hsc] at hw
        simp only [List.mem_singleton] at hw
        rw [hw]
        exact scale_mem_vocabulary (hg.2 s hsc)
    · exact ih (fun q hq => hG q (List.mem_cons_of_mem _ hq)) w hw

/-- C5: on a phrase of well-formed groups (a unit or tens word, optionally followed
after a blank by one scale word) separated by single blanks or ` and `, whose total
fits a 32-bit `int`, `conv_num` returns the decimal text of the sum of `v * m` over
the groups. -/
theorem conv_num_phrase (g0 : NumGroup) (gs : List (Bool × NumGroup))
    (h0 : g0.wellFormed) (hs : ∀ p ∈ gs, p.2.wellFormed)
    (hfit : phraseValue g0 gs < 2147483648) :
    conv_num (phraseText g0 gs) = Nat.toDigits 10 (phraseValue g0 gs).toNat := by
  have hG : ∀ g ∈ g0 :: gs.map Prod.snd, g.wellFormed := by
    intro g hg
    rcases List.mem_cons.mp hg with h | h
    · rw [h]; exact h0
    · obtain ⟨p, hp, rfl⟩ := List.mem_map.mp h
      exact hs p hp
  have hL : ∀ p ∈ scalePart g0 ++ flatRest gs, p.2 ∈ vocabulary := by
    intro p hp
    rcases List.mem_append.mp hp with h | h
    · unfold scalePart at h
      cases hsc : g0.scale with
      | none => rw [hsc] at h; simp at h
      | some s =>
        rw [hsc] at h
        simp only [List.mem_singleton] at h
        rw [h]
        exact scale_mem_vocabulary (h0.2 s hsc)
    · exact flatRest_plain gs hs p h
  have hwords : g0.unit.1 :: (scalePart g0 ++ flatRest gs).map Prod.snd
      = groupsWords (g0 :: gs.map Prod.snd) := by
    rw [List.map_append, flatRest_words]
    simp only [groupsWords, groupWords, scalePart]
    cases g0.scale <;> simp
  have hval : groupsValue (g0 :: gs.map Prod.snd) = phraseValue g0 gs := by
    simp [groupsValue, phraseValue, groupsValue_map]
  rw [phraseText_eq, conv_num_words _ _ (plainWord_of_vocabulary (unit_mem_vocabulary h0.1))
    (fun p hp => plainWord_of_vocabulary (hL p hp)), hwords]
  have hknown : (groupsWords (g0 :: gs.map Prod.snd)).any isUnknownWord = false := by
    rw [List.any_eq_false]
    intro w hw
    have := (vocabulary_facts w (groupsWords_vocabulary _ hG w hw)).2.2.2.2.1
    simp [this]
  have hnn := groupsValue_nonneg _ hG
  rw [hknown, convLoop_groups _ hG 0 [] (by omega) (by rw [hval]; omega)]
  simp only [Bool.false_eq_true, if_false, List.nil_append, Int.zero_add, hval]
  rw [hval] at hnn
  unfold to_string
  rw [if_neg (by omega)]

set_option maxRecDepth 100000 in
/-- C5, witness: `two thousand one hundred and fifty four` gives `2154`, and `five`
gives `5`. -/
theorem conv_num_phrase_witness :
    phraseText gTwoThousand [(false, gOneHundred), (true, gFifty), (false, gFour)]
      = "two thousand one hundred and fifty four".toList ∧
    conv_num (phraseText gTwoThousand [(false, gOneHundred), (true, gFifty), (false, gFour)])
      = Nat.toDigits 10
        (phraseValue gTwoThousand [(false, gOneHundred), (true, gFifty), (false, gFour)]).toNat
      ∧
    conv_num "two thousand one hundred and fifty four".toList = "2154".toList ∧
    conv_num "five".toList = "5".toList :=
  ⟨by decide, conv_num_phrase _ _ (by decide) (by decide) (by decide), by decide,
    by decide⟩

/-! ## Currency and number tidy -/

theorem replace_commas (s : List Char) : ReplaceString s ",".toList [] = stripCommas s := by
  show replaceFrom [','] [] s 0 = _
  induction s with
  | nil => rfl
  | cons c cs ih =>
    by_cases h : c = ','
    · subst h
      rw [replaceFrom, if_pos (by simp [List.isPrefixOf])]
      simpa [stripCommas] using ih
    · have h2 : ([','] : List Char).isPrefixOf (c :: cs) = false := by
        have : (',' == c) = false := by
          rw [beq_eq_false_iff_ne]; exact fun e => h e.symm
        simp [List.isPrefixOf, this]
      rw [replaceFrom, if_neg (by simp [h2]), ih]
      simp [stripCommas, h]

theorem stripCommas_idem (s : List Char) : stripCommas (stripCommas s) = stripCommas s := by
  simp [stripCommas]

theorem stripCommas_number (s : List Char) (h : ∀ c ∈ s, isNumberChar c = true) :
    ∀ c ∈ stripCommas s, isNumberChar c = true := by
  intro c hc
  exact h c (List.mem_filter.mp hc).1

/-- A text whose first character is no digit and no comma matches none of the three
patterns that start with digits. -/
theorem no_number_lead (t : List Char)
    (h : ∀ c, t.head? = some c → isNumberChar c = false) :
    number_tidy_dollars t = none ∧ number_tidy_nodollars t = none ∧
      number_tidy_positive t = false := by
  cases t with
  | nil => exact ⟨rfl, rfl, rfl⟩
  | cons c r =>
    have hc : isNumberChar c = false := h c rfl
    refine ⟨?_, ?_, ?_⟩
    · simp [number_tidy_dollars, List.takeWhile_cons, hc]
    · simp [number_tidy_nodollars, List.takeWhile_cons, hc]
    · simp [number_tidy_positive, hc]

theorem take_number (D r : List Char) (x : Char) (hD : ∀ c ∈ D, isNumberChar c = true)
    (hx : isNumberChar x = false) :
    (D ++ x :: r).takeWhile isNumberChar = D ∧
      (D ++ x :: r).dropWhile isNumberChar = x :: r := by
  constructor
  · rw [List.takeWhile_append_of_pos hD, List.takeWhile_cons_of_neg (by simp [hx])]
    simp
  · rw [List.dropWhile_append_of_pos hD, List.dropWhile_cons_of_neg (by simp [hx])]

theorem take_number_all (D : List Char) (hD : ∀ c ∈ D, isNumberChar c = true) :
    D.takeWhile isNumberChar = D ∧ D.dropWhile isNumberChar = [] := by
  constructor
  · rw [List.takeWhile_eq_self_iff]; exact hD
  · rw [List.dropWhile_eq_nil_iff]; exact hD

theorem not_signed_of_blank (s : List Char) (h : ' ' ∈ s) :
    number_tidy_positive s = false ∧ number_tidy_negative s = false := by
  constructor
  · simp only [number_tidy_positive, Bool.and_eq_false_imp, Bool.not_eq_true']
    intro _
    rw [List.all_eq_false]
    exact ⟨' ', h, by decide⟩
  · cases s with
    | nil => rfl
    | cons c r =>
      rcases List.mem_cons.mp h with e | e
      · rw [← e]; simp [number_tidy_negative]
      · simp only [number_tidy_negative, Bool.and_eq_false_imp]
        intro _
        rw [List.all_eq_false]
        exact ⟨' ', e, by decide⟩

theorem tidy_dollar_lead (r : List Char) :
    tidySigned (tidyNoDollars ('$' :: r)) = '$' :: r := by
  obtain ⟨_, h2, h3⟩ := no_number_lead ('$' :: r) (by intro c hc; cases hc; decide)
  have h4 : number_tidy_negative ('$' :: r) = false := by simp [number_tidy_negative]
  simp [tidyNoDollars, tidySigned, h2, h3, h4]


theorem tidy_num_other_lead (t : List Char)
    (ht : ∀ c, t.head? = some c → isNumberChar c = false ∧ c ≠ '$' ∧ c ≠ '-') :
    tidy_num t = t := by
  obtain ⟨h1, h3, h4⟩ := no_number_lead t (fun c hc => (ht c hc).1)
  have h2 : tidyDollarSign t = t := by
    unfold tidyDollarSign
    rw [if_neg]
    cases t with
    | nil => simp
    | cons c r => simp [(ht c rfl).2.1]
  have h5 : number_tidy_negative t = false := by
    cases t with
    | nil => rfl
    | cons c r => simp [number_tidy_negative, (ht c rfl).2.2]
  unfold tidy_num
  simp [tidyDollars, h1, h2, tidyNoDollars, h3, tidySigned, h4, h5]

/-- C8: for every non-empty text `D` of digits and commas and every non-empty word
`W` without white space other than `dollars`: `D dollars` becomes `$` and `D` without
commas; `$D` becomes `$` and `D` without commas; `D W` becomes `D` without commas, a
blank and `W`; `D` and `-D` lose their commas; and a text that does not begin with a
digit, a comma, `$` or `-` is returned unchanged. -/
theorem tidy_num_rule_table (D W : List Char) (hD : D ≠ [])
    (hDc : ∀ c ∈ D, isNumberChar c = true) (hW : W ≠ [])
    (hWs : ∀ c ∈ W, isSpaceChar c = false) (hWd : W ≠ "dollars".toList) :
    tidy_num (D ++ " dollars".toList) = '$' :: stripCommas D ∧
    tidy_num ('$' :: D) = '$' :: stripCommas D ∧
    tidy_num (D ++ ' ' :: W) = stripCommas D ++ ' ' :: W ∧
    tidy_num D = stripCommas D ∧
    tidy_num ('-' :: D) = '-' :: stripCommas D ∧
    (∀ t : List Char,
      (∀ c, t.head? = some c → isNumberChar c = false ∧ c ≠ '$' ∧ c ≠ '-') →
      tidy_num t = t) := by
  obtain ⟨d, D', hdD⟩ := List.exists_cons_of_ne_nil hD
  have hd : isNumberChar d = true := hDc d (by rw [hdD]; exact List.mem_cons_self _ _)
  have hd1 : d ≠ '$' := by rintro rfl; exact absurd hd (by decide)
  have hd2 : d ≠ '-' := by rintro rfl; exact absurd hd (by decide)
  have hDe : D.isEmpty = false := by rw [hdD]; rfl
  refine ⟨?_, ?_, ?_, ?_, ?_, ?_⟩
  · have e : D ++ " dollars".toList = D ++ ' ' :: "dollars".toList := rfl
    obtain ⟨t1, t2⟩ := take_number D "dollars".toList ' ' hDc (by decide)
    have h1 : number_tidy_dollars (D ++ ' ' :: "dollars".toList) = some D := by
      unfold number_tidy_dollars
      have e1 : (' ' :: "dollars".toList).takeWhile isSpaceChar = [' '] := by decide
      have e2 : (' ' :: "dollars".toList).dropWhile isSpaceChar = "dollars".toList := by
        decide
      simp only [t1, t2, hDe, e1, e2]
      rfl
    have h2 : tidyDollarSign ('$' :: stripCommas D) = '$' :: stripCommas D := by
      unfold tidyDollarSign
      split
      · rw [replace_commas]
        simp [stripCommas]
      · rfl
    unfold tidy_num
    rw [e]
    simp only [tidyDollars, h1, replace_commas, h2, tidy_dollar_lead]
  · have h1 : number_tidy_dollars ('$' :: D) = none :=
      (no_number_lead ('$' :: D) (by intro c hc; cases hc; decide)).1
    have h2 : tidyDollarSign ('$' :: D) = '$' :: stripCommas D := by
      unfold tidyDollarSign
      rw [if_pos (by rw [hdD]; simp), replace_commas]
      simp [stripCommas]
    unfold tidy_num
    simp only [tidyDollars, h1, h2, tidy_dollar_lead]
  · obtain ⟨w, W', hwW⟩ := List.exists_cons_of_ne_nil hW
    have hw : isSpaceChar w = false := hWs w (by rw [hwW]; exact List.mem_cons_self _ _)
    obtain ⟨t1, t2⟩ := take_number D W ' ' hDc (by decide)
    have b1 : (' ' :: W).takeWhile isSpaceChar = [' '] := by
      rw [hwW, List.takeWhile_cons_of_pos (by decide),
        List.takeWhile_cons_of_neg (by simp [hw])]
    have b2 : (' ' :: W).dropWhile isSpaceChar = W := by
      rw [hwW, List.dropWhile_cons_of_pos (by decide),
        List.dropWhile_cons_of_neg (by simp [hw])]
    have h1 : number_tidy_dollars (D ++ ' ' :: W) = none := by
      unfold number_tidy_dollars
      simp only [t1, t2, b1, b2, hDe]
      have : (W == "dollars".toList) = false := by
        rw [beq_eq_false_iff_ne]; exact hWd
      rw [this]
      rfl
    have h2 : tidyDollarSign (D ++ ' ' :: W) = D ++ ' ' :: W := by
      unfold tidyDollarSign
      rw [if_neg]
      rw [hdD]
      simp [hd1]
    have hnl : W.all (fun c => c != '\n') = true := by
      rw [List.all_eq_true]
      intro c hc
      have := hWs c hc
      simp only [bne_iff_ne, ne_eq]
      rintro rfl
      exact absurd this (by decide)
    have hWe : W.isEmpty = false := by rw [hwW]; rfl
    have h3 : number_tidy_nodollars (D ++ ' ' :: W) = some (D, W) := by
      unfold number_tidy_nodollars
      simp only [t1, t2, b1, b2, hDe, hWe, hnl]
      simp
    obtain ⟨h4, h5⟩ := not_signed_of_blank (stripCommas D ++ ' ' :: W) (by simp)
    unfold tidy_num
    simp only [tidyDollars, h1, h2, tidyNoDollars, h3, replace_commas]
    have e : stripCommas D ++ " ".toList ++ W = stripCommas D ++ ' ' :: W := by
      simp
    rw [e]
    simp [tidySigned, h4, h5]
  · obtain ⟨t1, t2⟩ := take_number_all D hDc
    have h1 : number_tidy_dollars D = none := by
      unfold number_tidy_dollars
      simp [t2]
    have h2 : tidyDollarSign D = D := by
      unfold tidyDollarSign
      rw [if_neg]
      rw [hdD]
      simp [hd1]
    have h3 : number_tidy_nodollars D = none := by
      unfold number_tidy_nodollars
      simp [t2]
    have h4 : number_tidy_positive D = true := by
      unfold number_tidy_positive
      simp only [hDe, Bool.not_false, Bool.true_and, List.all_eq_true]
      exact hDc
    unfold tidy_num
    simp only [tidyDollars, h1, h2, tidyNoDollars, h3, tidySigned, h4, Bool.true_or, if_true,
      replace_commas]
  · obtain ⟨h1, h3, _⟩ := no_number_lead ('-' :: D) (by intro c hc; cases hc; decide)
    have h2 : tidyDollarSign ('-' :: D) = '-' :: D := by
      unfold tidyDollarSign
      rw [if_neg]
      simp
    have h4 : number_tidy_negative ('-' :: D) = true := by
      unfold number_tidy_negative
      simp only [hDe, beq_self_eq_true, Bool.not_false, Bool.true_and, List.all_eq_true]
      exact hDc
    unfold tidy_num
    simp only [tidyDollars, h1, h2, tidyNoDollars, h3, tidySigned, h4, Bool.or_true, if_true,
      replace_commas]
    simp [stripCommas]
  · exact fun t ht => tidy_num_other_lead t ht

/-- C8, witness: the rule table at `1,000` and `armadillos`, and the texts of the
self-test. -/
theorem tidy_num_rule_table_witness :
    (tidy_num ("1,000".toList ++ " dollars".toList) = '$' :: stripCommas "1,000".toList ∧
    tidy_num ('$' :: "1,000".toList) = '$' :: stripCommas "1,000".toList ∧
    tidy_num ("1,000".toList ++ ' ' :: "armadillos".toList)
      = stripCommas "1,000".toList ++ ' ' :: "armadillos".toList ∧
    tidy_num "1,000".toList = stripCommas "1,000".toList ∧
    tidy_num ('-' :: "1,000".toList) = '-' :: stripCommas "1,000".toList ∧
    (∀ t : List Char,
      (∀ c, t.head? = some c → isNumberChar c = false ∧ c ≠ '$' ∧ c ≠ '-') →
      tidy_num t = t)) ∧
    tidy_num "$1,000,000".toList = "$1000000".toList ∧
    tidy_num "1,000".toList = "1000".toList ∧
    tidy_num "1,000 dollars".toList = "$1000".toList ∧
    tidy_num "1,000 armadillos".toList = "1000 armadillos".toList ∧
    tidy_num "abc def ghi".toList = "abc def ghi".toList :=
  ⟨tidy_num_rule_table "1,000".toList "armadillos".toList (by decide) (by decide)
      (by decide) (by decide) (by decide),
    by decide, by decide, by decide, by decide, by decide⟩


/-! ## Normalisation of a message -/

theorem from_string_dollar (r : List Char) : from_string ('$' :: r) = 0 := by
  have h1 : ('$' :: r).dropWhile isSpaceChar = '$' :: r :=
    List.dropWhile_cons_of_neg (by decide)
  have h2 : ('$' :: r).takeWhile Char.isDigit = [] :=
    List.takeWhile_cons_of_neg (by decide)
  unfold from_string extractInt
  simp only [h1]
  simp [h2]

/-- Whenever `conv_num` marks its result as currency, the parse in `OnMessage` reads
`0` from it and the conversion is dropped. -/
theorem normalize_drops_currency (text : List Char) (r : List Char)
    (h : conv_num text = '$' :: r) : normalizeMessage text = tidy_num text := by
  unfold normalizeMessage
  simp only [h, from_string_dollar]
  rfl

theorem conv_num_unknown (text : List Char)
    (h : (numWords text).any isUnknownWord = true) : conv_num text = "0".toList := by
  unfold conv_num
  simp only [h, if_true]

theorem normalize_unknown (text : List Char)
    (h : (numWords text).any isUnknownWord = true) :
    normalizeMessage text = tidy_num text := by
  unfold normalizeMessage
  rw [conv_num_unknown text h]
  rfl

/-- C6, the code at the failing input: `conv_num` turns `one million dollars` into
`$1000000`, but the parse of that text as an `int` gives `0`, so `OnMessage` keeps the
message as it was and its normal form is `one million dollars`, not `$1000000`. -/
theorem normalize_one_million_dollars :
    conv_num "one million dollars".toList = "$1000000".toList ∧
    from_string "$1000000".toList = 0 ∧
    normalizeMessage "one million dollars".toList = "one million dollars".toList ∧
    normalizeMessage "one million dollars".toList ≠ "$1000000".toList := by
  decide

/-- C7, as amended: when one of the words that `conv_num` splits the text into (after
double blanks are collapsed, hyphens removed and ` and ` collapsed) is no number word
of the table and contains none of `hundred`, `thousand`, `million`, `dollars`, letter
case ignored, the conversion gives `0` and the normal form of the message is
`tidy_num` of the original text; and for every text the normal form is `tidy_num` of
the text or of its conversion. -/
theorem unknown_word_passes_through (text : List Char)
    (h : (numWords text).any isUnknownWord = true) :
    conv_num text = "0".toList ∧ normalizeMessage text = tidy_num text ∧
    (∀ t : List Char, normalizeMessage t = tidy_num t ∨
      normalizeMessage t = tidy_num (conv_num t)) := by
  refine ⟨conv_num_unknown text h, normalize_unknown text h, ?_⟩
  · intro t
    unfold normalizeMessage
    by_cases hx : from_string (conv_num t) > 0
    · right; simp only [hx, if_true]
    · left; simp only [hx, if_false]

/-- C7, witness: `ten pin bowling` is left unchanged. -/
theorem unknown_word_passes_through_witness :
    (numWords "ten pin bowling".toList).any isUnknownWord = true ∧
    normalizeMessage "ten pin bowling".toList = "ten pin bowling".toList ∧
    (conv_num "ten pin bowling".toList = "0".toList ∧
      normalizeMessage "ten pin bowling".toList = tidy_num "ten pin bowling".toList ∧
      (∀ t : List Char, normalizeMessage t = tidy_num t ∨
        normalizeMessage t = tidy_num (conv_num t))) :=
  ⟨by decide, by decide, unknown_word_passes_through "ten pin bowling".toList (by decide)⟩

/-- C7, as stated, fails: `two millionaire` has the token `millionaire`, which is no
recognized number word and none of `hundred`, `thousand`, `million`, `dollars`, yet
the conversion takes place and the normal form is `2000000`, not `tidy_num` of the
text. -/
theorem unrecognized_token_counterexample :
    (∃ t ∈ extractWords "two millionaire".toList [], isRecognizedWord t = false) ∧
    normalizeMessage "two millionaire".toList = "2000000".toList ∧
    normalizeMessage "two millionaire".toList ≠ tidy_num "two millionaire".toList := by
  decide

/-! ## Commands -/

theorem setState_same (states : Int → Option state_t) (ch : Int) (s : state_t) :
    setState states ch s ch = some s := by
  simp [setState]

theorem setState_other (states : Int → Option state_t) (ch ch' : Int) (s : state_t)
    (h : ch' ≠ ch) : setState states ch s ch' = states ch' := by
  simp [setState, h]

theorem answerStep_none (states : Int → Option state_t) (ch : Int) (msg : List Char)
    (h : states ch = none) : answerStep states ch msg = states := by
  unfold answerStep
  rw [h]

theorem answerStep_other (states : Int → Option state_t) (ch ch' : Int) (msg : List Char)
    (h : ch' ≠ ch) : answerStep states ch msg ch' = states ch' := by
  unfold answerStep
  cases states ch with
  | none => rfl
  | some state =>
    simp only
    split
    · split
      · rfl
      · split
        · exact setState_other _ _ _ _ h
        · rfl
    · rfl

theorem answerStep_some (states : Int → Option state_t) (ch : Int) (msg : List Char)
    (state : state_t) (h : states ch = some state) :
    answerStep states ch msg ch = some
      { state with round :=
          if isAnswerable state.gamestate = true ∧ state.round % 10 ≠ 0 ∧
            answerMatches msg state.curr_answer = true
          then state.round + 1 else state.round } := by
  unfold answerStep
  rw [h]
  simp only
  by_cases h1 : isAnswerable state.gamestate = true
  · by_cases h2 : state.round % 10 = 0
    · simp [h1, h2, h]
    · by_cases h3 : answerMatches msg state.curr_answer = true
      · simp [h1, h2, h3, setState_same]
      · simp [h1, h2, h3, h]
  · simp [h1, h]

/-- The start command on a channel without a session: the count read decides. -/
theorem start_without_session (states : Int → Option state_t) (m : message_create)
    (hno : states m.channel_id = none) (hcmd : isStartCommand m.clean_message = true)
    (hf : m.channel_found = true) (ht : m.test_mode_ok = true) :
    OnMessage states m =
      if startCount m.clean_message m.stale_questions < 5 ∨
          startCount m.clean_message m.stale_questions > 200 then
        ⟨states, some reply_t.badQuestionCount, false⟩
      else if m.shuffle_list_size < 50 then ⟨states, some reply_t.spoopy, false⟩
      else ⟨setState states m.channel_id
          (newState (startCount m.clean_message m.stale_questions)),
        some reply_t.started, false⟩ := by
  unfold isStartCommand at hcmd
  simp only [Bool.and_eq_true] at hcmd
  obtain ⟨⟨h1, h2⟩, h3⟩ := hcmd
  unfold OnMessage
  simp only [h1, h2, h3, hf, ht, hno, if_true, answerStep_none _ _ _ hno, startCount,
    Option.isSome_none, Bool.not_false, Bool.or_eq_true, decide_eq_true_eq]

/-- The count of a start command does not depend on what the local held before when
something other than white space follows the word `start`. -/
theorem startCount_present (clean_message : List Char) (a b : Int)
    (h : ((extractWord (extractWord (clean_message.drop 1)).2).2.dropWhile
      isSpaceChar).isEmpty = false) :
    startCount clean_message a = startCount clean_message b := by
  unfold startCount extractInt
  simp only [h, Bool.false_eq_true, if_false]


/-! ## The text of a start command against the empty answer -/

theorem answerMatches_empty_answer (msg : List Char) (h : answerMatches msg [] = true) :
    msg.length ≤ 1 := by
  rw [answerMatches_iff] at h
  rcases h with h | ⟨_, _, h⟩
  · have h2 := congrArg List.length h
    rw [lowercase_length, lowercase_length] at h2
    have h3 : ([] : List Char).length = 0 := rfl
    omega
  · have h2 := (script_length (script_levenstein msg [])).1
    rw [uppercase_length] at h2
    have h3 : (uppercase []).length = 0 := rfl
    omega

theorem toLower_eq_bang (c : Char) (h : c.toLower = '!') : c = '!' := by
  by_cases hc : 65 ≤ c.val.toNat ∧ c.val.toNat ≤ 90
  · obtain ⟨h1, h2⟩ := hc
    have e : c = Char.ofNat c.toNat := by simp
    rw [e] at h ⊢
    have h3 : c.toNat ≤ 90 := h2
    have h4 : 65 ≤ c.toNat := h1
    generalize c.toNat = n at h h3 h4
    interval_cases n <;> exact absurd h (by decide)
  · have e : c.toLower = c := by
      unfold Char.toLower
      simp only [ge_iff_le]
      rw [if_neg]
      simpa [Char.toNat] using hc
    rw [← e]; exact h

theorem isSpaceChar_cases (c : Char) (h : isSpaceChar c = true) :
    c = ' ' ∨ c = '\t' ∨ c = '\n' ∨ c = '\x0b' ∨ c = '\x0c' ∨ c = '\r' := by
  simp only [isSpaceChar, Bool.or_eq_true, beq_iff_eq] at h
  tauto

theorem toLower_of_space (c : Char) (h : isSpaceChar c = true) : c.toLower = c := by
  rcases isSpaceChar_cases c h with e | e | e | e | e | e <;> rw [e] <;> decide

theorem blankLed_dropWhile (l : List Char) :
    BlankLed (l.dropWhile (fun c => !isSpaceChar c)) := by
  induction l with
  | nil => exact Or.inl rfl
  | cons c l ih =>
    by_cases h : isSpaceChar c = true
    · rw [List.dropWhile_cons_of_neg (by simp [h])]
      exact Or.inr ⟨c, l, rfl, h⟩
    · rw [List.dropWhile_cons_of_pos (by simp [h])]
      exact ih

theorem replaceFrom_blankLed (hd : Char) (tl rep r : List Char)
    (hrep : (∃ c t, rep = c :: t ∧ isSpaceChar c = true) ∨ isSpaceChar hd = false)
    (h : BlankLed r) : BlankLed (replaceFrom (hd :: tl) rep r 0) := by
  rcases h with h | ⟨c, t, h, hc⟩
  · rw [h]; exact Or.inl rfl
  · rw [h]
    by_cases hit : (hd :: tl).isPrefixOf (c :: t) = true
    · rw [replaceFrom_hit _ _ _ _ hit]
      rcases hrep with ⟨c', t', e, hc'⟩ | hhd
      · rw [e]; exact Or.inr ⟨c', _, rfl, hc'⟩
      · have : hd = c := by
          simp only [List.isPrefixOf, Bool.and_eq_true, beq_iff_eq] at hit
          exact hit.1
        rw [this, hc] at hhd
        cases hhd
    · rw [replaceFrom_miss _ _ _ _ (Bool.eq_false_iff.mpr hit)]
      exact Or.inr ⟨c, _, rfl, hc⟩

/-- The shape that the text of a command keeps through the replacements of `conv_num`:
the command character, then white space or the end, or the command character and a
word without blank or hyphen, then white space or the end. -/
theorem command_shape_replace (hd : Char) (tl rep : List Char) (w r : List Char)
    (hbang : hd ≠ '!') (hw : ∀ c ∈ w, c ≠ hd)
    (hrep : (∃ c t, rep = c :: t ∧ isSpaceChar c = true) ∨ isSpaceChar hd = false)
    (hr : BlankLed r) :
    ∃ r', replaceFrom (hd :: tl) rep ('!' :: (w ++ r)) 0 = '!' :: (w ++ r') ∧
      BlankLed r' := by
  refine ⟨replaceFrom (hd :: tl) rep r 0, ?_, replaceFrom_blankLed hd tl rep r hrep hr⟩
  rw [replaceFrom_miss _ _ _ _ (isPrefixOf_cons_ne hd '!' tl _ (fun e => hbang e.symm)),
    replaceFrom_word hd tl rep w r hw]

theorem extractWords_first (w r : List Char) (hw : ∀ c ∈ w, isSpaceChar c = false)
    (hr : BlankLed r) :
    ∃ rest, extractWords ('!' :: (w ++ r)) [] = ('!' :: w) :: rest := by
  have h1 : extractWords ('!' :: (w ++ r)) [] = extractWords r (('!' :: w).reverse ++ []) :=
    extractWords_word ('!' :: w) r [] (by
      intro c hc
      rcases List.mem_cons.mp hc with e | e
      · rw [e]; decide
      · exact hw c e)
  rw [h1]
  have hne : (('!' :: w).reverse ++ []).isEmpty = false := by simp
  rcases hr with hr | ⟨c, t, hr, hc⟩
  · rw [hr, extractWords, hne]
    exact ⟨[], by simp⟩
  · rw [hr, extractWords, if_pos hc, hne]
    exact ⟨extractWords t [], by simp⟩

theorem isUnknownWord_congr (x y : List Char) (h : lowercase x = lowercase y) :
    isUnknownWord x = isUnknownWord y := by
  unfold isUnknownWord matchCaseless
  rw [h]

/-- The first word of a command text is unknown to `conv_num`, whatever follows. -/
theorem numWords_command (w r : List Char)
    (hw : lowercase w = [] ∨ lowercase w = "trivia".toList) (hr : BlankLed r) :
    (numWords ('!' :: (w ++ r))).any isUnknownWord = true := by
  have hmem : ∀ c ∈ w, c.toLower ∈ "trivia".toList := by
    intro c hc
    have : c.toLower ∈ lowercase w := List.mem_map_of_mem _ hc
    rcases hw with e | e
    · rw [e] at this; cases this
    · rw [e] at this; exact this
  have hsp : ∀ c ∈ w, isSpaceChar c = false := by
    intro c hc
    by_contra hcon
    have hs : isSpaceChar c = true := by simpa using hcon
    have := hmem c hc
    rw [toLower_of_space c hs] at this
    rcases isSpaceChar_cases c hs with e | e | e | e | e | e <;> rw [e] at this <;>
      revert this <;> decide
  have hblank : ∀ c ∈ w, c ≠ ' ' := by
    intro c hc e
    have := hsp c hc
    rw [e] at this
    exact absurd this (by decide)
  have hhyph : ∀ c ∈ w, c ≠ '-' := by
    intro c hc e
    have := hmem c hc
    rw [e] at this
    revert this
    decide
  obtain ⟨r1, e1, hr1⟩ := command_shape_replace ' ' [' '] [' '] w r (by decide) hblank
    (Or.inl ⟨' ', [], rfl, rfl⟩) hr
  obtain ⟨r2, e2, hr2⟩ := command_shape_replace '-' [] [] w r1 (by decide) hhyph
    (Or.inr (by decide)) hr1
  obtain ⟨r3, e3, hr3⟩ := command_shape_replace ' ' ['a', 'n', 'd', ' '] [' '] w r2
    (by decide) hblank (Or.inl ⟨' ', [], rfl, rfl⟩) hr2
  obtain ⟨rest, e4⟩ := extractWords_first w r3 hsp hr3
  have hnum : numWords ('!' :: (w ++ r)) = ('!' :: w) :: rest := by
    unfold numWords ReplaceString
    have hne : ('!' :: (w ++ r)).isEmpty = false := rfl
    simp only [hne, Bool.false_eq_true, if_false]
    show extractWords (replaceFrom [' ', 'a', 'n', 'd', ' '] [' ']
      (replaceFrom ['-'] [] (replaceFrom [' ', ' '] [' '] ('!' :: (w ++ r)) 0) 0) 0) [] = _
    rw [e1, e2, e3, e4]
  rw [hnum, List.any_cons]
  have hunk : isUnknownWord ('!' :: w) = true := by
    rcases hw with e | e
    · rw [isUnknownWord_congr ('!' :: w) ['!'] (by
        simp only [lowercase, List.map_cons] at e ⊢
        rw [e]; rfl)]
      decide
    · rw [isUnknownWord_congr ('!' :: w) "!trivia".toList (by
        simp only [lowercase, List.map_cons] at e ⊢
        rw [e]; rfl)]
      decide
  rw [hunk]
  rfl

/-- The normal form of a start command is the command itself, and it is longer than
one character. -/
theorem normalize_start_command (text : List Char) (h : isStartCommand text = true) :
    normalizeMessage text = text ∧ 2 ≤ text.length := by
  unfold isStartCommand at h
  simp only [Bool.and_eq_true, beq_iff_eq] at h
  obtain ⟨⟨h1, h2⟩, _⟩ := h
  cases text with
  | nil => exact absurd h1 (by decide)
  | cons c0 body =>
    have hc0 : c0 = '!' := by
      apply toLower_eq_bang
      have : lowercase [c0] = lowercase "!".toList := h1
      simpa [lowercase] using this
    subst hc0
    simp only [List.drop_succ_cons, List.drop_zero] at h2
    have hlen : 1 ≤ body.length := by
      cases body with
      | nil => exact absurd h2 (by decide)
      | cons _ _ => simp
    refine ⟨?_, by simp only [List.length_cons]; omega⟩
    have hunk : (numWords ('!' :: body)).any isUnknownWord = true := by
      by_cases hb : BlankLed body
      · have := numWords_command [] body (Or.inl rfl) hb
        simpa using this
      · have hd : body.dropWhile isSpaceChar = body := by
          cases body with
          | nil => rfl
          | cons c t =>
            have : isSpaceChar c = false := by
              by_contra hcon
              exact hb (Or.inr ⟨c, t, rfl, by simpa using hcon⟩)
            exact List.dropWhile_cons_of_neg (by simp [this])
        have hw : lowercase (body.takeWhile (fun c => !isSpaceChar c))
            = "trivia".toList := by
          have := h2
          unfold extractWord at this
          simp only [hd] at this
          exact this
        have := numWords_command (body.takeWhile (fun c => !isSpaceChar c))
          (body.dropWhile (fun c => !isSpaceChar c)) (Or.inr hw) (blankLed_dropWhile body)
        rw [List.takeWhile_append_dropWhile] at this
        exact this
    rw [normalize_unknown _ hunk]
    exact tidy_num_other_lead _ (by intro c hc; cases hc; decide)

/-! ## The claims about commands -/

set_option maxRecDepth 100000 in
/-- C9, the code at the failing input: on a channel without a session a start command
creates a session exactly when the count that `OnMessage` reads lies in `[5, 200]` and
at least 50 questions are available, the session then being in the asking state with
round 1 and interval 20, and the map is unchanged otherwise; but the message
`!trivia start` carries no count, the extraction at the end of the input leaves the
local `questions` as it was, and when that value is, say, 9, a session of 9 questions
is created, though none is when the value is out of range. -/
theorem start_count_read_decides :
    (∀ (states : Int → Option state_t) (m : message_create),
      states m.channel_id = none → isStartCommand m.clean_message = true →
      m.channel_found = true → m.test_mode_ok = true →
      ((5 ≤ startCount m.clean_message m.stale_questions ∧
          startCount m.clean_message m.stale_questions ≤ 200 ∧
          50 ≤ m.shuffle_list_size) →
        (OnMessage states m).states = setState states m.channel_id
          ⟨trivia_state_t.TRIV_ASK_QUESTION,
            startCount m.clean_message m.stale_questions + 1, 1, 20, []⟩) ∧
      (¬ (5 ≤ startCount m.clean_message m.stale_questions ∧
          startCount m.clean_message m.stale_questions ≤ 200 ∧
          50 ≤ m.shuffle_list_size) →
        (OnMessage states m).states = states)) ∧
    isStartCommand "!trivia start".toList = true ∧
    startCount "!trivia start".toList 9 = 9 ∧
    (OnMessage noSessions ⟨"!trivia start".toList, 7, true, true, 60, 9⟩).states 7
      = some ⟨trivia_state_t.TRIV_ASK_QUESTION, 10, 1, 20, []⟩ ∧
    (OnMessage noSessions ⟨"!trivia start".toList, 7, true, true, 60, 9⟩).reply
      = some reply_t.started ∧
    (OnMessage noSessions ⟨"!trivia start".toList, 7, true, true, 60, 0⟩).states 7
      = none := by
  refine ⟨?_, by decide, by decide, by decide, by decide, by decide⟩
  intro states m hno hcmd hf ht
  rw [start_without_session states m hno hcmd hf ht]
  constructor
  · rintro ⟨h1, h2, h3⟩
    rw [if_neg (by omega), if_neg (by omega)]
    rfl
  · intro h
    by_cases h1 : startCount m.clean_message m.stale_questions < 5 ∨
        startCount m.clean_message m.stale_questions > 200
    · rw [if_pos h1]
    · rw [if_neg h1]
      have h2 : m.shuffle_list_size < 50 := by
        by_contra hcon
        exact h ⟨by omega, by omega, by omega⟩
      rw [if_pos h2]

/-- A start command on a channel that has a session, on any map: it is answered with
the message that a round is already running; no other channel changes; the channel
keeps a session with the same state, number of questions, interval and answer; its
round is the same too unless the message passes the answer test, which `OnMessage`
runs before it looks at the command; and a session whose answer is the empty text, as
the start command creates it, is left as it was, and so is the whole map. -/
theorem start_on_running_channel (states : Int → Option state_t) (m : message_create)
    (state : state_t) (hs : states m.channel_id = some state)
    (hcmd : isStartCommand m.clean_message = true)
    (hf : m.channel_found = true) (ht : m.test_mode_ok = true) :
    (OnMessage states m).reply = some reply_t.alreadyRunning ∧
    (OnMessage states m).result = false ∧
    (∀ ch, ch ≠ m.channel_id → (OnMessage states m).states ch = states ch) ∧
    (OnMessage states m).states m.channel_id = some
      { state with round :=
          if isAnswerable state.gamestate = true ∧ state.round % 10 ≠ 0 ∧
            answerMatches (normalizeMessage m.clean_message) state.curr_answer = true
          then state.round + 1 else state.round } ∧
    (state.curr_answer = [] → (OnMessage states m).states = states) := by
  have hnorm := normalize_start_command m.clean_message hcmd
  unfold isStartCommand at hcmd
  simp only [Bool.and_eq_true] at hcmd
  obtain ⟨⟨h1, h2⟩, h3⟩ := hcmd
  have hO : OnMessage states m =
      ⟨answerStep states m.channel_id (normalizeMessage m.clean_message),
        some reply_t.alreadyRunning, false⟩ := by
    unfold OnMessage
    simp only [h1, h2, h3, hf, ht, hs, if_true, Option.isSome_some, Bool.not_true,
      Bool.false_eq_true, if_false]
  rw [hO]
  refine ⟨rfl, rfl, fun ch hch => answerStep_other _ _ _ _ hch,
    answerStep_some _ _ _ _ hs, ?_⟩
  intro hempty
  funext ch
  by_cases hch : ch = m.channel_id
  · have hno : ¬ (isAnswerable state.gamestate = true ∧ state.round % 10 ≠ 0 ∧
        answerMatches (normalizeMessage m.clean_message) state.curr_answer = true) := by
      rintro ⟨_, _, hm⟩
      rw [hempty, hnorm.1] at hm
      have := answerMatches_empty_answer _ hm
      have := hnorm.2
      omega
    show answerStep states m.channel_id (normalizeMessage m.clean_message) ch = states ch
    rw [hch, answerStep_some _ _ _ _ hs, if_neg hno, hs]
  · exact answerStep_other _ _ _ _ hch

/-! ## Sessions under any message -/

/-- On a channel that has a session, a message does to the map what the answer test
does and nothing else. -/
theorem OnMessage_states_of_session (states : Int → Option state_t) (m : message_create)
    (state : state_t) (hs : states m.channel_id = some state) :
    (OnMessage states m).states =
      answerStep states m.channel_id (normalizeMessage m.clean_message) := by
  unfold OnMessage
  simp only [hs, Option.isSome_some, Bool.not_true, Bool.false_eq_true, if_false]
  repeat' split
  all_goals rfl

/-- On a channel without a session, a message leaves the map as it was or creates a
session as the start command does. -/
theorem OnMessage_states_of_no_session (states : Int → Option state_t)
    (m : message_create) (hs : states m.channel_id = none) :
    (OnMessage states m).states = states ∨
      ∃ q : Int, 5 ≤ q ∧ q ≤ 200 ∧
        (OnMessage states m).states = setState states m.channel_id (newState q) := by
  unfold OnMessage
  simp only [answerStep_none _ _ _ hs, hs, Option.isSome_none, Bool.not_false, if_true]
  repeat' split
  all_goals first
    | exact Or.inl rfl
    | (rename_i h1 h2
       refine Or.inr ⟨_, ?_, ?_, rfl⟩
       · simp only [Bool.or_eq_true, decide_eq_true_eq, not_or, not_lt] at h1
         exact h1.1
       · simp only [Bool.or_eq_true, decide_eq_true_eq, not_or, not_lt] at h1
         omega)

theorem OnMessage_other_channel (states : Int → Option state_t) (m : message_create)
    (ch : Int) (hch : ch ≠ m.channel_id) : (OnMessage states m).states ch = states ch := by
  cases hs : states m.channel_id with
  | some state =>
    rw [OnMessage_states_of_session states m state hs]
    exact answerStep_other _ _ _ _ hch
  | none =>
    rcases OnMessage_states_of_no_session states m hs with h | ⟨q, _, _, h⟩
    · rw [h]
    · rw [h]; exact setState_other _ _ _ _ hch

/-- The normal form of a `trivia` command is the command itself, and it is longer
than one character. -/
theorem normalize_trivia_command (text : List Char)
    (h1 : lowercase (text.take 1) = lowercase "!".toList)
    (h2 : lowercase (extractWord (text.drop 1)).1 = "trivia".toList) :
    normalizeMessage text = text ∧ 2 ≤ text.length := by
  cases text with
  | nil => exact absurd h1 (by decide)
  | cons c0 body =>
    have hc0 : c0 = '!' := by
      apply toLower_eq_bang
      have : lowercase [c0] = lowercase "!".toList := h1
      simpa [lowercase] using this
    subst hc0
    simp only [List.drop_succ_cons, List.drop_zero] at h2
    have hlen : 1 ≤ body.length := by
      cases body with
      | nil => exact absurd h2 (by decide)
      | cons _ _ => simp
    refine ⟨?_, by simp only [List.length_cons]; omega⟩
    have hunk : (numWords ('!' :: body)).any isUnknownWord = true := by
      by_cases hb : BlankLed body
      · have := numWords_command [] body (Or.inl rfl) hb
        simpa using this
      · have hd : body.dropWhile isSpaceChar = body := by
          cases body with
          | nil => rfl
          | cons c t =>
            have : isSpaceChar c = false := by
              by_contra hcon
              exact hb (Or.inr ⟨c, t, rfl, by simpa using hcon⟩)
            exact List.dropWhile_cons_of_neg (by simp [this])
        have hw : lowercase (body.takeWhile (fun c => !isSpaceChar c))
            = "trivia".toList := by
          have := h2
          unfold extractWord at this
          simp only [hd] at this
          exact this
        have := numWords_command (body.takeWhile (fun c => !isSpaceChar c))
          (body.dropWhile (fun c => !isSpaceChar c)) (Or.inr hw) (blankLed_dropWhile body)
        rw [List.takeWhile_append_dropWhile] at this
        exact this
    rw [normalize_unknown _ hunk]
    exact tidy_num_other_lead _ (by intro c hc; cases hc; decide)

/-- A session whose answer is the empty text is not advanced by a `trivia` command. -/
theorem answerStep_trivia_command (states : Int → Option state_t) (ch : Int)
    (text : List Char) (state : state_t) (hs : states ch = some state)
    (hempty : state.curr_answer = [])
    (h1 : lowercase (text.take 1) = lowercase "!".toList)
    (h2 : lowercase (extractWord (text.drop 1)).1 = "trivia".toList) :
    answerStep states ch (normalizeMessage text) = states := by
  have hnorm := normalize_trivia_command text h1 h2
  funext c
  by_cases hc : c = ch
  · have hno : ¬ (isAnswerable state.gamestate = true ∧ state.round % 10 ≠ 0 ∧
        answerMatches (normalizeMessage text) state.curr_answer = true) := by
      rintro ⟨_, _, hm⟩
      rw [hempty, hnorm.1] at hm
      have := answerMatches_empty_answer _ hm
      have := hnorm.2
      omega
    rw [hc, answerStep_some _ _ _ _ hs, if_neg hno, hs]
  · exact answerStep_other _ _ _ _ hc

/-- What every session of a reachable map looks like. -/
theorem session_shape_step (states : Int → Option state_t) (m : message_create)
    (h : ∀ ch st, states ch = some st →
      st.gamestate = trivia_state_t.TRIV_ASK_QUESTION ∧ 6 ≤ st.numquestions ∧
      st.numquestions ≤ 201 ∧ 1 ≤ st.round ∧ st.round ≤ 10 ∧ st.interval = 20 ∧
      st.curr_answer = []) :
    ∀ ch st, (OnMessage states m).states ch = some st →
      st.gamestate = trivia_state_t.TRIV_ASK_QUESTION ∧ 6 ≤ st.numquestions ∧
      st.numquestions ≤ 201 ∧ 1 ≤ st.round ∧ st.round ≤ 10 ∧ st.interval = 20 ∧
      st.curr_answer = [] := by
  intro ch st hst
  by_cases hch : ch = m.channel_id
  · subst hch
    cases hs : states m.channel_id with
    | some state =>
      obtain ⟨g, q1, q2, r1, r2, i, a⟩ := h _ _ hs
      rw [OnMessage_states_of_session states m state hs, answerStep_some _ _ _ _ hs] at hst
      have e := Option.some.inj hst
      rw [← e]
      refine ⟨g, q1, q2, ?_, ?_, i, a⟩
      · show (1 : Int) ≤ (if _ then state.round + 1 else state.round)
        split
        · exact Int.le_add_one (Int.le_trans (by decide) r1)
        · exact r1
      · show (if _ then state.round + 1 else state.round) ≤ (10 : Int)
        split
        · rename_i hc
          have h10 := hc.2.1
          have h9 : state.round ≤ 9 := by omega
          exact Int.add_le_of_le_sub_right (by simpa using h9)
        · exact r2
    | none =>
      rcases OnMessage_states_of_no_session states m hs with e | ⟨q, hq1, hq2, e⟩
      · rw [e, hs] at hst; cases hst
      · rw [e, setState_same] at hst
        have e2 := Option.some.inj hst
        rw [← e2]
        exact ⟨rfl, by show (6 : Int) ≤ q + 1; omega, by show q + 1 ≤ (201 : Int); omega,
          by show (1 : Int) ≤ 1; omega, by show (1 : Int) ≤ 10; omega, rfl, rfl⟩
  · rw [OnMessage_other_channel states m ch hch] at hst
    exact h ch st hst

theorem session_shape_run (ms : List message_create) :
    ∀ states : Int → Option state_t,
    (∀ ch st, states ch = some st →
      st.gamestate = trivia_state_t.TRIV_ASK_QUESTION ∧ 6 ≤ st.numquestions ∧
      st.numquestions ≤ 201 ∧ 1 ≤ st.round ∧ st.round ≤ 10 ∧ st.interval = 20 ∧
      st.curr_answer = []) →
    ∀ ch st, runMessages states ms ch = some st →
      st.gamestate = trivia_state_t.TRIV_ASK_QUESTION ∧ 6 ≤ st.numquestions ∧
      st.numquestions ≤ 201 ∧ 1 ≤ st.round ∧ st.round ≤ 10 ∧ st.interval = 20 ∧
      st.curr_answer = [] := by
  induction ms with
  | nil => intro states h; exact h
  | cons m ms ih =>
    intro states h
    exact ih _ (session_shape_step states m h)

/-! ## The claims about sessions -/

/-- C10: on a map of sessions that messages have produced from the empty map, a start
command, whatever its count, received on a channel that has a session is refused with
the message that a round is already running: the map of sessions is exactly what it
was, so no second session is created and the channel maps to the same session, whose
state, round, number of questions and interval are what they were. -/
theorem start_conflict_keeps_session (states : Int → Option state_t)
    (m : message_create) (state : state_t) (hR : Reachable states)
    (hs : states m.channel_id = some state)
    (hcmd : isStartCommand m.clean_message = true)
    (hf : m.channel_found = true) (ht : m.test_mode_ok = true) :
    (OnMessage states m).reply = some reply_t.alreadyRunning ∧
    (OnMessage states m).result = false ∧
    (OnMessage states m).states = states ∧
    (OnMessage states m).states m.channel_id = some state := by
  obtain ⟨ms, hms⟩ := hR
  have hshape := session_shape_run ms noSessions (by intro c s hcs; cases hcs)
    m.channel_id state (by rw [hms]; exact hs)
  obtain ⟨h1, h2, _, _, h5⟩ := start_on_running_channel states m state hs hcmd hf ht
  have h6 := h5 hshape.2.2.2.2.2.2
  exact ⟨h1, h2, h6, by rw [h6]; exact hs⟩

set_option maxRecDepth 100000 in
/-- C10, witness: after a start command for five questions on channel 7, a start
command for ten questions on that channel is refused and the session of five
questions is still there, in round 1. -/
theorem start_conflict_keeps_session_witness :
    Reachable (runMessages noSessions startedOnce) ∧
    runMessages noSessions startedOnce startAgain.channel_id = some (newState 5) ∧
    isStartCommand startAgain.clean_message = true ∧
    (OnMessage (runMessages noSessions startedOnce) startAgain).reply
      = some reply_t.alreadyRunning ∧
    (OnMessage (runMessages noSessions startedOnce) startAgain).states
      = runMessages noSessions startedOnce ∧
    (OnMessage (runMessages noSessions startedOnce) startAgain).states
      startAgain.channel_id = some (newState 5) :=
  ⟨⟨startedOnce, rfl⟩, by decide, by decide,
    (start_conflict_keeps_session (runMessages noSessions startedOnce) startAgain
      (newState 5) ⟨startedOnce, rfl⟩ (by decide) (by decide) rfl rfl).1,
    (start_conflict_keeps_session (runMessages noSessions startedOnce) startAgain
      (newState 5) ⟨startedOnce, rfl⟩ (by decide) (by decide) rfl rfl).2.2.1,
    (start_conflict_keeps_session (runMessages noSessions startedOnce) startAgain
      (newState 5) ⟨startedOnce, rfl⟩ (by decide) (by decide) rfl rfl).2.2.2⟩

/-- C11, as amended: a stop command sends no message and leaves every other channel
alone; on a channel that has a session the session is still there afterwards, with
the same state, number of questions, interval and answer, its round being one more
only when the command text itself passes the answer test in an answerable state and a
round that is no multiple of ten, and the whole map is unchanged when the answer of
the session is the empty text; on a channel without a session the map is unchanged. -/
theorem stop_command_keeps_session (states : Int → Option state_t) (m : message_create)
    (hcmd : isStopCommand m.clean_message = true) :
    (OnMessage states m).reply = none ∧
    (∀ ch, ch ≠ m.channel_id → (OnMessage states m).states ch = states ch) ∧
    (∀ state, states m.channel_id = some state →
      (OnMessage states m).states m.channel_id = some
        { state with round :=
            if isAnswerable state.gamestate = true ∧ state.round % 10 ≠ 0 ∧
              answerMatches (normalizeMessage m.clean_message) state.curr_answer = true
            then state.round + 1 else state.round } ∧
      (state.curr_answer = [] → (OnMessage states m).states = states)) ∧
    (states m.channel_id = none → (OnMessage states m).states = states) := by
  unfold isStopCommand at hcmd
  simp only [Bool.and_eq_true, beq_iff_eq] at hcmd
  obtain ⟨⟨h1, h2⟩, h3⟩ := hcmd
  have hO : OnMessage states m =
      ⟨answerStep states m.channel_id (normalizeMessage m.clean_message), none, true⟩ := by
    unfold OnMessage
    have hne : (("stop".toList : List Char) == "start".toList) = false := by decide
    simp only [h1, h2, h3, hne, beq_self_eq_true, if_true, Bool.false_eq_true, if_false]
    split <;> [split; skip] <;> rfl
  rw [hO]
  refine ⟨rfl, fun ch hch => answerStep_other _ _ _ _ hch, ?_, ?_⟩
  · intro state hs
    exact ⟨answerStep_some _ _ _ _ hs,
      fun hempty => answerStep_trivia_command states _ _ state hs hempty h1 h2⟩
  · intro hs
    exact answerStep_none _ _ _ hs

set_option maxRecDepth 100000 in
/-- C11, witness: the stop command on the channel of a running session. -/
theorem stop_command_keeps_session_witness :
    isStopCommand stopNow.clean_message = true ∧
    (OnMessage runningSessions stopNow).reply = none ∧
    (OnMessage runningSessions stopNow).states 7 = some (newState 5) :=
  ⟨by decide, (stop_command_keeps_session runningSessions stopNow (by decide)).1,
    by decide⟩

set_option maxRecDepth 100000 in
/-- C11, as stated, fails: after the stop command has been processed on a channel
that has a session, a lookup of the channel still finds the session. -/
theorem stop_command_counterexample :
    isStopCommand stopNow.clean_message = true ∧
    runningSessions 7 = some (newState 5) ∧
    (OnMessage runningSessions stopNow).states 7 = some (newState 5) ∧
    (OnMessage runningSessions stopNow).states 7 ≠ none := by
  decide

/-- C12, as amended: for a session in one of the four answerable states, a message
whose normal form passes the answer test against the current answer advances the
round by exactly one when the round is no multiple of ten and leaves it as it was
when it is one; nothing else of the session changes. -/
theorem matching_answer_advances_round (states : Int → Option state_t)
    (m : message_create) (state : state_t) (hs : states m.channel_id = some state)
    (ha : isAnswerable state.gamestate = true)
    (hm : answerMatches (normalizeMessage m.clean_message) state.curr_answer = true) :
    (OnMessage states m).states m.channel_id =
      some { state with round :=
        if state.round % 10 = 0 then state.round else state.round + 1 } := by
  rw [OnMessage_states_of_session states m state hs, answerStep_some _ _ _ _ hs]
  by_cases hr : state.round % 10 = 0
  · rw [if_neg (fun h => h.2.1 hr), if_pos hr]
  · rw [if_pos ⟨ha, hr, hm⟩, if_neg hr]

set_option maxRecDepth 100000 in
/-- C12, witness: the answer `a` to a session in round one whose answer is empty. -/
theorem matching_answer_advances_round_witness :
    runningSessions (say "a".toList).channel_id = some (newState 5) ∧
    (OnMessage runningSessions (say "a".toList)).states 7 =
      some ⟨trivia_state_t.TRIV_ASK_QUESTION, 6, 2, 20, []⟩ ∧
    (OnMessage runningSessions (say "a".toList)).states (say "a".toList).channel_id =
      some { newState 5 with round :=
        if (newState 5).round % 10 = 0 then (newState 5).round
        else (newState 5).round + 1 } :=
  ⟨by decide, by decide,
    matching_answer_advances_round runningSessions (say "a".toList) (newState 5)
      (by decide) (by decide) (by decide)⟩

set_option maxRecDepth 100000 in
/-- C12, as stated, fails: a session in round ten that asks a question and waits for
`cow` receives `cow`, which passes the answer test, and is still in round ten. -/
theorem tenth_round_counterexample :
    (tenthRound 7).map (fun s => (s.gamestate, s.round, s.curr_answer))
      = some (trivia_state_t.TRIV_ASK_QUESTION, 10, "cow".toList) ∧
    answerMatches (normalizeMessage "cow".toList) "cow".toList = true ∧
    ((OnMessage tenthRound (say "cow".toList)).states 7).map (fun s => s.round)
      = some 10 := by
  decide

/-- C13, as amended: in every map reachable from the empty one, the round of every
session is at least 1 and at most 10, and the number of questions stored at creation
is between 6 and 201; the round is not bounded by that number. -/
theorem reachable_round_bounds (states : Int → Option state_t) (h : Reachable states)
    (ch : Int) (st : state_t) (hs : states ch = some st) :
    1 ≤ st.round ∧ st.round ≤ 10 ∧ 6 ≤ st.numquestions ∧ st.numquestions ≤ 201 := by
  obtain ⟨ms, rfl⟩ := h
  obtain ⟨_, q1, q2, r1, r2, _, _⟩ :=
    session_shape_run ms noSessions (by intro c s hcs; cases hcs) ch st hs
  exact ⟨r1, r2, q1, q2⟩

set_option maxRecDepth 100000 in
/-- C13, witness: the session after a start command and six messages. -/
theorem reachable_round_bounds_witness :
    Reachable (runMessages noSessions sixGuesses) ∧
    runMessages noSessions sixGuesses 7
      = some ⟨trivia_state_t.TRIV_ASK_QUESTION, 6, 7, 20, []⟩ ∧
    (1 ≤ (7 : Int) ∧ (7 : Int) ≤ 10 ∧ 6 ≤ (6 : Int) ∧ (6 : Int) ≤ 201) :=
  ⟨⟨sixGuesses, rfl⟩, by decide,
    reachable_round_bounds (runMessages noSessions sixGuesses) ⟨sixGuesses, rfl⟩ 7
      ⟨trivia_state_t.TRIV_ASK_QUESTION, 6, 7, 20, []⟩ (by decide)⟩

set_option maxRecDepth 100000 in
/-- C13, as stated, fails: after a start command for five questions and six messages
`a`, each of which passes the answer test against the empty answer, the session is
in round 7 while the number of questions stored for it is 6. -/
theorem round_exceeds_total_counterexample :
    ¬ (∀ states : Int → Option state_t, Reachable states →
        ∀ (ch : Int) (st : state_t), states ch = some st →
          1 ≤ st.round ∧ st.round ≤ st.numquestions) := by
  intro h
  have h1 := h (runMessages noSessions sixGuesses) ⟨sixGuesses, rfl⟩ 7
    ⟨trivia_state_t.TRIV_ASK_QUESTION, 6, 7, 20, []⟩ (by decide)
  exact absurd h1.2 (by decide)

/-- C14: a message received on one channel leaves every other channel as it was: the
other channel has a session afterwards exactly when it had one before, and the
session is the same; and a channel never has two sessions. -/
theorem other_channels_untouched (states : Int → Option state_t) (m : message_create)
    (ch : Int) (hch : ch ≠ m.channel_id) :
    (OnMessage states m).states ch = states ch ∧
    (((OnMessage states m).states ch).isSome = (states ch).isSome) ∧
    (∀ (c : Int) (s1 s2 : state_t), (OnMessage states m).states c = some s1 →
      (OnMessage states m).states c = some s2 → s1 = s2) := by
  have h := OnMessage_other_channel states m ch hch
  refine ⟨h, by rw [h], ?_⟩
  intro c s1 s2 h1 h2
  rw [h1] at h2
  exact Option.some.inj h2

set_option maxRecDepth 100000 in
/-- C14, witness: a start command on channel 8 beside the session of channel 7. -/
theorem other_channels_untouched_witness :
    (7 : Int) ≠ (⟨"!trivia start 9".toList, 8, true, true, 60, 0⟩ :
      message_create).channel_id ∧
    (OnMessage runningSessions ⟨"!trivia start 9".toList, 8, true, true, 60, 0⟩).states 8
      = some (newState 9) ∧
    (OnMessage runningSessions ⟨"!trivia start 9".toList, 8, true, true, 60, 0⟩).states 7
      = runningSessions 7 :=
  ⟨by decide, by decide,
    (other_channels_untouched runningSessions
      ⟨"!trivia start 9".toList, 8, true, true, 60, 0⟩ 7 (by decide)).1⟩

/-- C15: a submitted text that is shorter than the canonical answer by two characters
or more is rejected by the answer test, whatever the answer. -/
theorem short_submission_rejected (c s : List Char) (h : s.length + 2 ≤ c.length) :
    answerMatches s c = false := by
  rw [Bool.eq_false_iff]
  intro hm
  rw [answerMatches_iff] at hm
  rcases hm with hm | ⟨_, _, hm⟩
  · have h2 := congrArg List.length hm
    rw [lowercase_length, lowercase_length] at h2
    omega
  · have h2 := (script_length (script_levenstein s c)).2
    rw [uppercase_length, uppercase_length] at h2
    omega

/-- C15, witness: `c` against the answer `cow`, and `4` against the answer `421`. -/
theorem short_submission_rejected_witness :
    "c".toList.length + 2 ≤ "cow".toList.length ∧
    answerMatches "c".toList "cow".toList = false ∧
    answerMatches "4".toList "421".toList = false :=
  ⟨by decide, short_submission_rejected "cow".toList "c".toList (by decide), by decide⟩

/-! ## The first hint -/

theorem hintResult_nil (indollars : Bool) : hintResult [] indollars = fallbackPhrase := rfl

theorem hintLoop_nonpositive (numstrs : List (Int × List Char)) (fuel : Nat) (n : Int)
    (Q : List Char) (h : n ≤ 0) : hintLoop numstrs fuel n Q = some (n, Q) := by
  have hc : (GetNearestNumberVal numstrs n != 0 && decide (n > 0)) = false := by
    have : decide (n > 0) = false := by simp; omega
    rw [this, Bool.and_false]
  cases fuel with
  | zero => rw [hintLoop, hc]; rfl
  | succ f => rw [hintLoop, hc]; rfl

/-- The reverse scan finds the largest key that is at most the number. -/
theorem find_largest_key (L : List (Int × List Char)) (n : Int) (p : Int × List Char)
    (hL : L.Pairwise (fun a b => b.1 < a.1)) (hp : p ∈ L) (hpn : p.1 ≤ n)
    (hmax : ∀ q ∈ L, q.1 ≤ n → q.1 ≤ p.1) :
    L.find? (fun x => decide (x.1 ≤ n)) = some p := by
  induction L with
  | nil => cases hp
  | cons x L ih =>
    rw [List.pairwise_cons] at hL
    by_cases hx : x.1 ≤ n
    · rw [List.find?_cons_of_pos _ (by simpa using hx)]
      rcases List.mem_cons.mp hp with e | e
      · rw [e]
      · have h1 := hL.1 p e
        have h2 := hmax x (List.mem_cons_self _ _) hx
        omega
    · rw [List.find?_cons_of_neg _ (by simpa using hx)]
      rcases List.mem_cons.mp hp with e | e
      · rw [e] at hpn; exact absurd hpn hx
      · exact ih hL.2 e (fun q hq => hmax q (List.mem_cons_of_mem _ hq))

theorem find_no_key (L : List (Int × List Char)) (n : Int) (h : ∀ p ∈ L, n < p.1) :
    L.find? (fun x => decide (x.1 ≤ n)) = none := by
  rw [List.find?_eq_none]
  intro x hx
  have := h x hx
  simp only [decide_eq_true_eq]
  omega

theorem nearest_of_largest (numstrs : List (Int × List Char)) (n : Int)
    (p : Int × List Char) (hs : AscendingKeys numstrs) (hp : p ∈ numstrs) (hpn : p.1 ≤ n)
    (hmax : ∀ q ∈ numstrs, q.1 ≤ n → q.1 ≤ p.1) :
    GetNearestNumberVal numstrs n = p.1 ∧ GetNearestNumber numstrs n = p.2 := by
  have h := find_largest_key numstrs.reverse n p
    (by rw [List.pairwise_reverse]; exact hs) (List.mem_reverse.mpr hp) hpn
    (fun q hq => hmax q (List.mem_reverse.mp hq))
  unfold GetNearestNumberVal GetNearestNumber
  rw [h]
  exact ⟨rfl, rfl⟩

theorem nearest_of_none (numstrs : List (Int × List Char)) (n : Int)
    (h : ∀ p ∈ numstrs, n < p.1) : GetNearestNumberVal numstrs n = 0 := by
  have := find_no_key numstrs.reverse n (fun p hp => h p (List.mem_reverse.mp hp))
  unfold GetNearestNumberVal
  rw [this]

theorem wrap64_of_fits (x : Int) (h0 : 0 ≤ x) (h1 : x < 9223372036854775808) :
    wrap64 x = x := by
  unfold wrap64; omega

theorem withPlus_append (a b : List (List Char)) :
    withPlus (a ++ b) = withPlus a ++ withPlus b := by
  induction a with
  | nil => rfl
  | cons x a ih => simp [withPlus, ih]

/-- The loop of `MakeFirstHint` follows the greedy procedure when the keys are
ascending and positive and the fuel is at least the number of entries taken. -/
theorem hintLoop_greedy (numstrs : List (Int × List Char)) (hs : AscendingKeys numstrs)
    (hpos : ∀ p ∈ numstrs, 0 < p.1) (n r : Int) (chosen : List (Int × List Char))
    (h : Greedy numstrs n chosen r) :
    n < 9223372036854775808 → ∀ (fuel : Nat) (Q : List Char), chosen.length ≤ fuel →
      hintLoop numstrs fuel n Q = some (r, Q ++ withPlus (chosen.map Prod.snd)) := by
  induction h with
  | done n hn =>
    intro _ fuel Q _
    have hc : (GetNearestNumberVal numstrs n != 0 && decide (n > 0)) = false := by
      rw [nearest_of_none numstrs n hn]; rfl
    cases fuel with
    | zero => rw [hintLoop, hc]; simp [withPlus]
    | succ f => rw [hintLoop, hc]; simp [withPlus]
  | step n p chosen r hp hpn hmax _ ih =>
    intro hfit fuel Q hfuel
    obtain ⟨hv, hname⟩ := nearest_of_largest numstrs n p hs hp hpn hmax
    have hp0 := hpos p hp
    have hc : (GetNearestNumberVal numstrs n != 0 && decide (n > 0)) = true := by
      rw [hv]
      simp only [Bool.and_eq_true, bne_iff_ne, ne_eq, decide_eq_true_eq]
      constructor <;> omega
    cases fuel with
    | zero => simp at hfuel
    | succ f =>
      rw [hintLoop, hc, if_pos rfl, hv, hname,
        wrap64_of_fits (n - p.1) (by omega) (by omega),
        ih (by omega) f _ (by simpa using hfuel)]
      simp [withPlus]

theorem is_number_from_string (s : List Char) (h : is_number s = true) :
    0 ≤ from_string64 s ∧ from_string64 s < 9223372036854775808 := by
  unfold is_number at h
  simp only [Bool.and_eq_true, Bool.not_eq_true', List.all_eq_true] at h
  obtain ⟨hne, hall⟩ := h
  cases s with
  | nil => simp at hne
  | cons c t =>
    have hc : c.isDigit = true := hall c (List.mem_cons_self _ _)
    have hsp : isSpaceChar c = false := by
      by_contra hcon
      have hs : isSpaceChar c = true := by simpa using hcon
      rcases isSpaceChar_cases c hs with e | e | e | e | e | e <;> rw [e] at hc <;>
        exact absurd hc (by decide)
    have hm : c ≠ '-' := by rintro rfl; exact absurd hc (by decide)
    have hpl : c ≠ '+' := by rintro rfl; exact absurd hc (by decide)
    have hd : (c :: t).dropWhile isSpaceChar = c :: t :=
      List.dropWhile_cons_of_neg (by simp [hsp])
    unfold from_string64 extractInt64
    simp only [hd, List.isEmpty_cons, Bool.false_eq_true, if_false, List.head?_cons,
      beq_iff_eq, Option.some.injEq, hm, hpl, Bool.or_self, decide_False]
    split
    · omega
    · split
      · omega
      · split
        · omega
        · constructor
          · exact Int.ofNat_nonneg _
          · omega

/-! ## The claims about the first hint -/

/-- When the greedy procedure leaves a positive remainder, `MakeFirstHint` appends
its numeral and then drops the last seven characters of the whole text. -/
theorem first_hint_remainder (numstrs : List (Int × List Char)) (s : List Char)
    (chosen : List (Int × List Char)) (r : Int) (hs : AscendingKeys numstrs)
    (hpos : ∀ p ∈ numstrs, 0 < p.1) (hnum : is_number s = true)
    (hr : 0 < r) (hg : Greedy numstrs (from_string64 s) chosen r)
    (hsmall : ∀ p ∈ numstrs, r < p.1) (fuel : Nat) (hfuel : chosen.length ≤ fuel)
    (indollars : Bool) :
    MakeFirstHint numstrs fuel s indollars = some
      (hintResult (dropLastSeven (withPlus (chosen.map Prod.snd) ++ to_string r))
        indollars) := by
  have hfit := (is_number_from_string s hnum).2
  have hloop := hintLoop_greedy numstrs hs hpos _ _ _ hg hfit fuel [] hfuel
  have hname : numbertoname numstrs r = to_string r := by
    unfold numbertoname
    have : numstrs.find? (fun x => x.1 == r) = none := by
      rw [List.find?_eq_none]
      intro x hx
      have := hsmall x hx
      simp only [beq_iff_eq]
      omega
    rw [this]
  unfold MakeFirstHint
  rw [if_pos hnum, hloop]
  simp only [gt_iff_lt, hr, if_true, hname, List.nil_append]

set_option maxRecDepth 100000 in
/-- C17, the code at the failing input: with the table whose only key is 10, named
`ten`, the greedy procedure takes `ten` from 13 and leaves the remainder 3, and
`MakeFirstHint` returns `ten,` where the claim has `ten, plus 3`: the last seven
characters are cut off after the numeral has been appended.  The numeral alone is
returned for the answer `3`, but for an answer of seven digits below every key the
whole numeral is cut off and the fallback phrase is returned. -/
theorem first_hint_remainder_cut :
    AscendingKeys tenTable ∧ (∀ p ∈ tenTable, 0 < p.1) ∧
    Greedy tenTable 13 [(10, "ten".toList)] 3 ∧ (∀ p ∈ tenTable, (3 : Int) < p.1) ∧
    MakeFirstHint tenTable 1 "13".toList false = some "ten,".toList ∧
    MakeFirstHint tenTable 1 "13".toList false ≠ some "ten, plus 3".toList ∧
    MakeFirstHint tenTable 1 "13".toList true = some "ten,, in DOLLARS".toList ∧
    MakeFirstHint tenTable 0 "3".toList false = some "3".toList ∧
    MakeFirstHint [(20000000, "twenty million".toList)] 0 "1234567".toList false
      = some fallbackPhrase :=
  ⟨by decide, by decide,
    Greedy.step 13 _ _ 3 (by decide) (by decide) (by decide) (Greedy.done 3 (by decide)),
    by decide, by decide, by decide, by decide, by decide, by decide⟩

/-- C18: for the answer `0` and for every answer that is not a non-empty string of
decimal digits, `MakeFirstHint` returns the fallback phrase, with or without the
currency flag, whatever the table and the fuel. -/
theorem first_hint_fallback (numstrs : List (Int × List Char)) (fuel : Nat)
    (s : List Char) (indollars : Bool) (h : s = "0".toList ∨ is_number s = false) :
    MakeFirstHint numstrs fuel s indollars = some "The lowest non-negative number".toList := by
  rcases h with h | h
  · subst h
    have h1 : is_number "0".toList = true := by decide
    have h2 : from_string64 "0".toList = 0 := by decide
    unfold MakeFirstHint
    rw [if_pos h1, h2, hintLoop_nonpositive numstrs fuel 0 [] (Int.le_refl 0)]
    rfl
  · unfold MakeFirstHint
    rw [h]
    rfl

set_option maxRecDepth 100000 in
/-- C18, witness: the answers `0`, the empty text, `-5` and `$5`. -/
theorem first_hint_fallback_witness :
    ("-5".toList = "0".toList ∨ is_number "-5".toList = false) ∧
    MakeFirstHint smallTable 0 "-5".toList true
      = some "The lowest non-negative number".toList ∧
    MakeFirstHint smallTable 0 "0".toList false = some fallbackPhrase ∧
    MakeFirstHint smallTable 0 [] false = some fallbackPhrase ∧
    MakeFirstHint smallTable 0 "$5".toList true = some fallbackPhrase :=
  ⟨by decide, first_hint_fallback smallTable 0 "-5".toList true (by decide),
    by decide, by decide, by decide⟩

/-! ## Roman numerals -/

theorem romanWhile_count (number : Nat) (roman : List Char) (hpos : 0 < number) :
    ∀ (k fuel decimal : Nat) (result : List Char), k * number ≤ decimal →
      decimal < k * number + number → decimal ≤ fuel →
      romanWhile number roman fuel decimal result
        = (decimal - k * number, result ++ repeatText k roman) := by
  intro k
  induction k with
  | zero =>
    intro fuel decimal result _ h2 _
    have hlt : ¬ decimal ≥ number := by omega
    cases fuel with
    | zero => simp [romanWhile, repeatText]
    | succ f => rw [romanWhile, if_neg hlt]; simp [repeatText]
  | succ k ih =>
    intro fuel decimal result h1 h2 hf
    rw [Nat.succ_mul] at h1 h2
    have hge : decimal ≥ number := by omega
    cases fuel with
    | zero => omega
    | succ f =>
      rw [romanWhile, if_pos hge, ih f (decimal - number) _ (by omega) (by omega) (by omega)]
      rw [Nat.succ_mul]
      simp only [repeatText, List.append_assoc]
      congr 1
      omega

theorem romanWhile_div (number : Nat) (roman : List Char) (hpos : 0 < number)
    (decimal : Nat) (result : List Char) :
    romanWhile number roman decimal decimal result
      = (decimal % number, result ++ repeatText (decimal / number) roman) := by
  have h1 : decimal / number * number ≤ decimal := Nat.div_mul_le_self _ _
  have h2 : decimal < decimal / number * number + number := by
    have := Nat.lt_div_mul_add hpos (a := decimal)
    exact this
  rw [romanWhile_count number roman hpos (decimal / number) decimal decimal result h1 h2
    (Nat.le_refl _)]
  congr 1
  have := Nat.mod_add_div decimal number
  have e : number * (decimal / number) = decimal / number * number := Nat.mul_comm _ _
  omega

theorem romanFor_step (x number : Nat) (roman : List Char)
    (hn : numbers.getD x 0 = number) (hr : romans.getD x [] = roman) (hpos : 0 < number)
    (decimal : Nat) (result : List Char) :
    romanFor (x + 1) decimal result
      = romanFor x (decimal % number) (result ++ repeatText (decimal / number) roman) := by
  rw [romanFor, hn, hr, romanWhile_div number roman hpos]

theorem romanFor_closed (n : Nat) :
    romanFor 13 n [] =
      repeatText (n / 1000) "M".toList
      ++ (repeatText (n % 1000 / 900) "CM".toList
        ++ repeatText (n % 1000 % 900 / 500) "D".toList
        ++ repeatText (n % 1000 % 900 % 500 / 400) "CD".toList
        ++ repeatText (n % 1000 % 900 % 500 % 400 / 100) "C".toList)
      ++ (repeatText (n % 1000 % 900 % 500 % 400 % 100 / 90) "XC".toList
        ++ repeatText (n % 1000 % 900 % 500 % 400 % 100 % 90 / 50) "L".toList
        ++ repeatText (n % 1000 % 900 % 500 % 400 % 100 % 90 % 50 / 40) "XL".toList
        ++ repeatText (n % 1000 % 900 % 500 % 400 % 100 % 90 % 50 % 40 / 10) "X".toList)
      ++ (repeatText (n % 1000 % 900 % 500 % 400 % 100 % 90 % 50 % 40 % 10 / 9) "IX".toList
        ++ repeatText (n % 1000 % 900 % 500 % 400 % 100 % 90 % 50 % 40 % 10 % 9 / 5)
          "V".toList
        ++ repeatText (n % 1000 % 900 % 500 % 400 % 100 % 90 % 50 % 40 % 10 % 9 % 5 / 4)
          "IV".toList
        ++ repeatText (n % 1000 % 900 % 500 % 400 % 100 % 90 % 50 % 40 % 10 % 9 % 5 % 4 / 1)
          "I".toList) := by
  rw [romanFor_step 12 1000 "M".toList rfl rfl (by decide),
    romanFor_step 11 900 "CM".toList rfl rfl (by decide),
    romanFor_step 10 500 "D".toList rfl rfl (by decide),
    romanFor_step 9 400 "CD".toList rfl rfl (by decide),
    romanFor_step 8 100 "C".toList rfl rfl (by decide),
    romanFor_step 7 90 "XC".toList rfl rfl (by decide),
    romanFor_step 6 50 "L".toList rfl rfl (by decide),
    romanFor_step 5 40 "XL".toList rfl rfl (by decide),
    romanFor_step 4 10 "X".toList rfl rfl (by decide),
    romanFor_step 3 9 "IX".toList rfl rfl (by decide),
    romanFor_step 2 5 "V".toList rfl rfl (by decide),
    romanFor_step 1 4 "IV".toList rfl rfl (by decide),
    romanFor_step 0 1 "I".toList rfl rfl (by decide), romanFor]
  simp only [List.nil_append, List.append_assoc]

theorem place_thousands (n : Nat) (h : n < 4000) :
    repeatText (n / 1000) "M".toList = placeNumeral 3 (n / 1000) := by
  have hb : n / 1000 < 4 := by omega
  generalize n / 1000 = b at hb
  interval_cases b <;> rfl

theorem place_hundreds (r : Nat) (h : r < 1000) :
    repeatText (r / 900) "CM".toList ++ repeatText (r % 900 / 500) "D".toList
      ++ repeatText (r % 900 % 500 / 400) "CD".toList
      ++ repeatText (r % 900 % 500 % 400 / 100) "C".toList = placeNumeral 2 (r / 100) := by
  have hb : r / 100 < 10 := by omega
  obtain ⟨b, hbr⟩ : ∃ b, r / 100 = b := ⟨_, rfl⟩
  rw [hbr] at hb ⊢
  interval_cases b <;>
    (first | rw [show r / 900 = 0 by omega] | rw [show r / 900 = 1 by omega]) <;>
    (first | rw [show r % 900 / 500 = 0 by omega] | rw [show r % 900 / 500 = 1 by omega]) <;>
    (first | rw [show r % 900 % 500 / 400 = 0 by omega]
           | rw [show r % 900 % 500 / 400 = 1 by omega]) <;>
    (first | rw [show r % 900 % 500 % 400 / 100 = 0 by omega]
           | rw [show r % 900 % 500 % 400 / 100 = 1 by omega]
           | rw [show r % 900 % 500 % 400 / 100 = 2 by omega]
           | rw [show r % 900 % 500 % 400 / 100 = 3 by omega]) <;> rfl

theorem place_tens (r : Nat) (h : r < 100) :
    repeatText (r / 90) "XC".toList ++ repeatText (r % 90 / 50) "L".toList
      ++ repeatText (r % 90 % 50 / 40) "XL".toList
      ++ repeatText (r % 90 % 50 % 40 / 10) "X".toList = placeNumeral 1 (r / 10) := by
  have hb : r / 10 < 10 := by omega
  obtain ⟨b, hbr⟩ : ∃ b, r / 10 = b := ⟨_, rfl⟩
  rw [hbr] at hb ⊢
  interval_cases b <;>
    (first | rw [show r / 90 = 0 by omega] | rw [show r / 90 = 1 by omega]) <;>
    (first | rw [show r % 90 / 50 = 0 by omega] | rw [show r % 90 / 50 = 1 by omega]) <;>
    (first | rw [show r % 90 % 50 / 40 = 0 by omega]
           | rw [show r % 90 % 50 / 40 = 1 by omega]) <;>
    (first | rw [show r % 90 % 50 % 40 / 10 = 0 by omega]
           | rw [show r % 90 % 50 % 40 / 10 = 1 by omega]
           | rw [show r % 90 % 50 % 40 / 10 = 2 by omega]
           | rw [show r % 90 % 50 % 40 / 10 = 3 by omega]) <;> rfl

theorem place_units (r : Nat) (h : r < 10) :
    repeatText (r / 9) "IX".toList ++ repeatText (r % 9 / 5) "V".toList
      ++ repeatText (r % 9 % 5 / 4) "IV".toList
      ++ repeatText (r % 9 % 5 % 4 / 1) "I".toList = placeNumeral 0 r := by
  interval_cases r <;> rfl

/-- The loop of `dec_to_roman` writes the numeral digit by digit. -/
theorem romanFor_standard (n : Nat) (h : n < 4000) : romanFor 13 n [] = standardRoman n := by
  rw [romanFor_closed, place_thousands n h]
  have e1 : n % 1000 % 900 % 500 % 400 % 100 = n % 1000 % 100 := by omega
  have e2 : n % 1000 % 100 % 90 % 50 % 40 % 10 = n % 1000 % 100 % 10 := by omega
  rw [place_hundreds (n % 1000) (by omega), e1, place_tens (n % 1000 % 100) (by omega),
    e2, place_units (n % 1000 % 100 % 10) (by omega)]
  unfold standardRoman
  rw [show n % 1000 / 100 = n / 100 % 10 by omega,
    show n % 1000 % 100 / 10 = n / 10 % 10 by omega,
    show n % 1000 % 100 % 10 = n % 10 by omega]

/-! ### Reading a numeral back -/

theorem romanValue_cons_cons (c d : Char) (rest : List Char) :
    romanValue (c :: d :: rest) =
      if romanDigit c < romanDigit d then romanValue (d :: rest) - romanDigit c
      else romanDigit c + romanValue (d :: rest) := by
  rw [romanValue]

theorem romanValue_append (s t : List Char) (hs : noTruncation s = true)
    (hb : ∀ l f, s.getLast? = some l → t.head? = some f → romanDigit f ≤ romanDigit l) :
    romanValue (s ++ t) = romanValue s + romanValue t := by
  induction s with
  | nil => simp [romanValue]
  | cons c s ih =>
    cases s with
    | nil =>
      cases t with
      | nil => simp [romanValue]
      | cons f t =>
        have := hb c f rfl rfl
        show romanValue (c :: f :: t) = romanDigit c + romanValue (f :: t)
        rw [romanValue_cons_cons, if_neg (by omega)]
    | cons d rest =>
      have hs2 : noTruncation (d :: rest) = true := by
        rw [noTruncation] at hs
        simp only [Bool.and_eq_true] at hs
        exact hs.2
      have ih2 := ih hs2 (by
        intro l f hl hf
        exact hb l f (by simpa [List.getLast?_cons_cons] using hl) hf)
      show romanValue (c :: (d :: rest ++ t)) = romanValue (c :: d :: rest) + romanValue t
      rw [List.cons_append] at ih2 ⊢
      rw [romanValue_cons_cons c d (rest ++ t), romanValue_cons_cons c d rest]
      by_cases hlt : romanDigit c < romanDigit d
      · rw [if_pos hlt, if_pos hlt, ih2]
        have hle : romanDigit c ≤ romanValue (d :: rest) := by
          rw [noTruncation] at hs
          simp only [Bool.and_eq_true, hlt, if_true, decide_eq_true_eq] at hs
          exact hs.1
        omega
      · rw [if_neg hlt, if_neg hlt, ih2]
        omega

theorem place_facts : ∀ place, place < 4 → ∀ d, d < 10 →
    noTruncation (placeNumeral place d) = true ∧
    romanValue (placeNumeral place d) = 10 ^ place * (if place = 3 ∧ 4 ≤ d then 0 else d) ∧
    (∀ l, (placeNumeral place d).getLast? = some l → 10 ^ place ≤ romanDigit l) ∧
    (∀ f, (placeNumeral place d).head? = some f → romanDigit f ≤ 5 * 10 ^ place) := by
  decide

theorem head_append_bound (s t : List Char) (B1 B2 : Nat)
    (hs : ∀ f, s.head? = some f → romanDigit f ≤ B1)
    (ht : ∀ f, t.head? = some f → romanDigit f ≤ B2) (h12 : B2 ≤ B1) :
    ∀ f, (s ++ t).head? = some f → romanDigit f ≤ B1 := by
  intro f hf
  cases s with
  | nil => exact Nat.le_trans (ht f hf) h12
  | cons c s => exact hs f hf

/-- Reading the digit-by-digit numeral back gives the number. -/
theorem romanValue_standard (n : Nat) (h : n < 4000) : romanValue (standardRoman n) = n := by
  have ha : n / 1000 < 4 := by omega
  have hb : n / 100 % 10 < 10 := by omega
  have hc : n / 10 % 10 < 10 := by omega
  have he : n % 10 < 10 := by omega
  obtain ⟨t3, v3, l3, _⟩ := place_facts 3 (by decide) (n / 1000) (by omega)
  obtain ⟨t2, v2, l2, f2⟩ := place_facts 2 (by decide) (n / 100 % 10) hb
  obtain ⟨t1, v1, l1, f1⟩ := place_facts 1 (by decide) (n / 10 % 10) hc
  obtain ⟨_, v0, _, f0⟩ := place_facts 0 (by decide) (n % 10) he
  have h10 := head_append_bound _ (placeNumeral 0 (n % 10)) _ _ f1 f0 (by decide)
  have h210 := head_append_bound _ (placeNumeral 1 (n / 10 % 10) ++ placeNumeral 0 (n % 10))
    _ _ f2 h10 (by decide)
  unfold standardRoman
  rw [List.append_assoc, List.append_assoc,
    romanValue_append _ _ t3 (fun l f hl hf =>
      Nat.le_trans (h210 f hf) (Nat.le_trans (by decide) (l3 l hl))),
    romanValue_append _ _ t2 (fun l f hl hf =>
      Nat.le_trans (h10 f hf) (Nat.le_trans (by decide) (l2 l hl))),
    romanValue_append _ _ t1 (fun l f hl hf =>
      Nat.le_trans (f0 f hf) (Nat.le_trans (by decide) (l1 l hl))),
    v3, v2, v1, v0]
  rw [if_neg (by omega), if_neg (by omega), if_neg (by omega), if_neg (by omega)]
  omega

/-- C19: for every `n` from 1 to 3999, `dec_to_roman n` is `Roman numerals: ` followed
by the standard numeral of `n` in subtractive notation, written digit by digit for
thousands, hundreds, tens and units, and reading that numeral back gives `n`. -/
theorem dec_to_roman_standard (n : Nat) (h1 : 1 ≤ n) (h2 : n ≤ 3999) :
    dec_to_roman n = "Roman numerals: ".toList ++ standardRoman n ∧
    romanValue (standardRoman n) = n := by
  refine ⟨?_, romanValue_standard n (by omega)⟩
  unfold dec_to_roman
  rw [romanFor_standard n (by omega)]

/-- C19, witness: `dec_to_roman 15` is `Roman numerals: XV`. -/
theorem dec_to_roman_standard_witness :
    dec_to_roman 15 = "Roman numerals: XV".toList ∧
    (dec_to_roman 15 = "Roman numerals: ".toList ++ standardRoman 15 ∧
      romanValue (standardRoman 15) = 15) :=
  ⟨by decide, dec_to_roman_standard 15 (by decide) (by decide)⟩

/-! ## The scrambled answer -/

theorem getD_set_perm (l : List Char) (a d : Char) (j : Nat) (hj : j < l.length) :
    (l.getD j d :: l.set j a).Perm (a :: l) := by
  induction l generalizing j with
  | nil => simp at hj
  | cons b l ih =>
    cases j with
    | zero =>
      simp only [List.getD_cons_zero, List.set_cons_zero]
      exact List.Perm.swap a b l
    | succ j =>
      simp only [List.getD_cons_succ, List.set_cons_succ]
      have h1 := ih j (by simpa using hj)
      exact ((List.Perm.swap b (l.getD j d) (l.set j a)).trans (h1.cons b)).trans
        (List.Perm.swap a b l)

theorem swapChars_perm (str : List Char) (i j : Nat) (hi : i < str.length)
    (hj : j < str.length) : (swapChars str i j).Perm str := by
  unfold swapChars
  induction str generalizing i j with
  | nil => simp at hi
  | cons a l ih =>
    cases i with
    | zero =>
      cases j with
      | zero => simp
      | succ j =>
        simp only [List.getD_cons_zero, List.getD_cons_succ, List.set_cons_zero,
          List.set_cons_succ]
        exact getD_set_perm l a ' ' j (by simpa using hj)
    | succ i =>
      cases j with
      | zero =>
        simp only [List.getD_cons_zero, List.getD_cons_succ, List.set_cons_zero,
          List.set_cons_succ]
        exact getD_set_perm l a ' ' i (by simpa using hi)
      | succ j =>
        simp only [List.getD_cons_succ, List.set_cons_succ]
        exact (ih i j (by simpa using hi) (by simpa using hj)).cons a

theorem scrambleFrom_perm (rand : Nat → Nat) (x : Nat) :
    ∀ (y k : Nat) (str : List Char), str.length = x → y ≤ x →
      ∃ p, scrambleFrom rand x y k str = some p ∧ p.Perm str := by
  intro y
  induction y with
  | zero => intro k str _ _; exact ⟨str, rfl, List.Perm.refl _⟩
  | succ y ih =>
    intro k str hlen hy
    have hx : x ≠ 0 := by omega
    have hpos : rand k % x < x := Nat.mod_lt _ (by omega)
    have hsw := swapChars_perm str y (rand k % x) (by omega) (by omega)
    obtain ⟨p, hp, hperm⟩ := ih (k + 1) (swapChars str y (rand k % x))
      (by rw [hsw.length_eq, hlen]) (by omega)
    refine ⟨p, ?_, hperm.trans hsw⟩
    rw [scrambleFrom, if_neg hx, hp]

theorem scrambleFrom_short (rand : Nat → Nat) (str : List Char) (h : str.length ≤ 1) :
    scrambleFrom rand str.length str.length 0 str = some str := by
  cases str with
  | nil => rfl
  | cons a l =>
    cases l with
    | nil =>
      show scrambleFrom rand 1 1 0 [a] = some [a]
      rw [scrambleFrom, if_neg (by decide), Nat.mod_one]
      rfl
    | cons b l => simp at h

/-- C20: for every text and every sequence of random values, `scramble` returns
`Scrambled answer: ` followed by a permutation of the characters of the text, of the
same length and with every character as often as in the text; a text of at most one
character is returned unchanged; and the remainder by zero never arises (the result
is never `none`). -/
theorem scramble_permutes (rand : Nat → Nat) (str : List Char) :
    ∃ p : List Char, scramble rand str = some ("Scrambled answer: ".toList ++ p) ∧
      p.Perm str ∧ p.length = str.length ∧ (∀ c, p.count c = str.count c) ∧
      (str.length ≤ 1 → p = str) := by
  obtain ⟨p, hp, hperm⟩ := scrambleFrom_perm rand str.length str.length 0 str rfl
    (Nat.le_refl _)
  refine ⟨p, ?_, hperm, hperm.length_eq, fun c => hperm.count_eq c, ?_⟩
  · unfold scramble
    rw [hp]
    rfl
  · intro hshort
    rw [scrambleFrom_short rand str hshort] at hp
    exact (Option.some.inj hp).symm

/-! ## Tidying twice -/

theorem tidyDollarSign_dollar (r : List Char) :
    tidyDollarSign ('$' :: r) = '$' :: stripCommas r := by
  unfold tidyDollarSign
  cases r with
  | nil => rfl
  | cons c r =>
    rw [if_pos (by simp), replace_commas]
    simp [stripCommas]

theorem tidyDollarSign_other (t : List Char) (h : t.head? ≠ some '$') :
    tidyDollarSign t = t := by
  unfold tidyDollarSign
  rw [if_neg]
  simp [h]

/-- A text that starts with `$` keeps the `$` and loses its commas. -/
theorem tidy_num_dollar (r : List Char) : tidy_num ('$' :: r) = '$' :: stripCommas r := by
  have h1 : number_tidy_dollars ('$' :: r) = none :=
    (no_number_lead ('$' :: r) (by intro c hc; cases hc; decide)).1
  unfold tidy_num
  simp only [tidyDollars, h1, tidyDollarSign_dollar, tidy_dollar_lead]

/-- A text that matches `<digits> dollars` becomes `$` and the digits without commas. -/
theorem tidy_num_of_dollars (x p : List Char) (h : number_tidy_dollars x = some p) :
    tidy_num x = '$' :: stripCommas p := by
  unfold tidy_num
  simp only [tidyDollars, h, replace_commas, tidyDollarSign_dollar, tidy_dollar_lead,
    stripCommas_idem]

theorem stripCommas_cons_minus (r : List Char) :
    stripCommas ('-' :: r) = '-' :: stripCommas r := by
  simp [stripCommas]

/-- A text that starts with `-`: the commas go when digits and commas follow up to the
end, and nothing changes otherwise. -/
theorem tidy_num_minus (r : List Char) :
    tidy_num ('-' :: r)
      = if (!r.isEmpty && r.all isNumberChar) = true then '-' :: stripCommas r
        else '-' :: r := by
  obtain ⟨h1, h3, h4⟩ := no_number_lead ('-' :: r) (by intro c hc; cases hc; decide)
  have h2 : tidyDollarSign ('-' :: r) = '-' :: r :=
    tidyDollarSign_other _ (by simp)
  have h5 : number_tidy_negative ('-' :: r) = (!r.isEmpty && r.all isNumberChar) := by
    simp [number_tidy_negative]
  unfold tidy_num
  simp only [tidyDollars, h1, h2, tidyNoDollars, h3, tidySigned, h4, h5, Bool.false_or,
    replace_commas, stripCommas_cons_minus]

/-- A text of digits and commas only loses its commas. -/
theorem tidy_num_number (D : List Char) (hDc : ∀ c ∈ D, isNumberChar c = true) :
    tidy_num D = stripCommas D := by
  cases D with
  | nil => rfl
  | cons d D' =>
    have hd : isNumberChar d = true := hDc d (List.mem_cons_self _ _)
    obtain ⟨t1, t2⟩ := take_number_all (d :: D') hDc
    have h1 : number_tidy_dollars (d :: D') = none := by
      unfold number_tidy_dollars
      simp [t2]
    have h2 : tidyDollarSign (d :: D') = d :: D' :=
      tidyDollarSign_other _ (by
        simp only [List.head?_cons, ne_eq, Option.some.injEq]
        rintro rfl; exact absurd hd (by decide))
    have h3 : number_tidy_nodollars (d :: D') = none := by
      unfold number_tidy_nodollars
      simp [t2]
    have h4 : number_tidy_positive (d :: D') = true := by
      unfold number_tidy_positive
      simp only [List.isEmpty_cons, Bool.not_false, Bool.true_and, List.all_eq_true]
      exact hDc
    unfold tidy_num
    simp only [tidyDollars, h1, h2, tidyNoDollars, h3, tidySigned, h4, Bool.true_or, if_true,
      replace_commas]

theorem getLastD_mem (l : List Char) (a : Char) (h : l ≠ []) : l.getLastD a ∈ l := by
  cases l with
  | nil => exact absurd rfl h
  | cons c r =>
    rw [List.getLastD_cons]
    induction r generalizing c with
    | nil => simp
    | cons d r ih =>
      rw [List.getLastD_cons]
      exact List.mem_cons_of_mem _ (ih d (by simp))

/-- What a match of `<digits> <suffix>` says about the text: the first group is the
leading run of digits and commas, which is not empty, white space follows, and the
second group is either the rest after the white space, which is not empty and has no
line feed, or, when nothing follows, the last blank. -/
theorem nodollars_some (x D S : List Char) (h : number_tidy_nodollars x = some (D, S)) :
    D = x.takeWhile isNumberChar ∧ D ≠ [] ∧
      (x.dropWhile isNumberChar).takeWhile isSpaceChar ≠ [] ∧
      ((S = (x.dropWhile isNumberChar).dropWhile isSpaceChar ∧ S ≠ [] ∧
          S.all (fun c => c != '\n') = true) ∨
        (∃ b, S = [b] ∧ isSpaceChar b = true ∧ b ≠ '\n')) := by
  unfold number_tidy_nodollars at h
  simp only at h
  split at h
  · exact absurd h (by simp)
  · rename_i hne
    simp only [Bool.or_eq_true, List.isEmpty_iff, not_or] at hne
    split at h
    · rename_i hr
      split at h
      · rename_i hnl
        simp only [Option.some.injEq, Prod.mk.injEq] at h
        refine ⟨h.1.symm, by rw [← h.1]; exact hne.1, hne.2, Or.inl ⟨h.2.symm, ?_, ?_⟩⟩
        · rw [← h.2]; simpa using hr
        · rw [← h.2]; exact hnl
      · exact absurd h (by simp)
    · split at h
      · rename_i hb
        simp only [Option.some.injEq, Prod.mk.injEq] at h
        simp only [Bool.and_eq_true, decide_eq_true_eq, bne_iff_ne, ne_eq] at hb
        refine ⟨h.1.symm, by rw [← h.1]; exact hne.1, hne.2,
          Or.inr ⟨_, h.2.symm, ?_, hb.2⟩⟩
        have hm := getLastD_mem _ ' ' hne.2
        exact (List.mem_takeWhile_imp hm)
      · exact absurd h (by simp)

/-- A text that the pattern `<digits> dollars` does not match, although digits and
white space lead it, has something else than `dollars` after the white space. -/
theorem dollars_none_rest (x : List Char) (h : number_tidy_dollars x = none)
    (hD : x.takeWhile isNumberChar ≠ [])
    (hB : (x.dropWhile isNumberChar).takeWhile isSpaceChar ≠ []) :
    (x.dropWhile isNumberChar).dropWhile isSpaceChar ≠ "dollars".toList := by
  intro e
  unfold number_tidy_dollars at h
  simp only [e] at h
  have h1 : (x.takeWhile isNumberChar).isEmpty = false := by
    cases hh : x.takeWhile isNumberChar with
    | nil => exact absurd hh hD
    | cons _ _ => rfl
  have h2 : ((x.dropWhile isNumberChar).takeWhile isSpaceChar).isEmpty = false := by
    cases hh : (x.dropWhile isNumberChar).takeWhile isSpaceChar with
    | nil => exact absurd hh hB
    | cons _ _ => rfl
  rw [h1, h2] at h
  simp at h

theorem dropWhile_space_head (l : List Char) (c : Char)
    (h : (l.dropWhile isSpaceChar).head? = some c) : isSpaceChar c = false := by
  induction l with
  | nil => simp at h
  | cons d l ih =>
    by_cases hd : isSpaceChar d = true
    · rw [List.dropWhile_cons_of_pos hd] at h
      exact ih h
    · rw [List.dropWhile_cons_of_neg hd] at h
      simp only [List.head?_cons, Option.some.injEq] at h
      rw [← h]
      simpa using hd

/-- A text already of the form digits, one blank, suffix is left as it is: the suffix
being a text without line feed that does not start with white space and is not
`dollars`. -/
theorem tidy_num_suffix_fixed (D S : List Char) (hDc : ∀ c ∈ D, isNumberChar c = true)
    (hS : S ≠ []) (hSh : ∀ c, S.head? = some c → isSpaceChar c = false)
    (hnl : S.all (fun c => c != '\n') = true) (hSd : S ≠ "dollars".toList) :
    tidy_num (stripCommas D ++ ' ' :: S) = stripCommas D ++ ' ' :: S := by
  cases hE : stripCommas D with
  | nil =>
    exact tidy_num_other_lead _ (by
      intro c hc
      simp only [List.nil_append, List.head?_cons, Option.some.injEq] at hc
      rw [← hc]; decide)
  | cons d D' =>
    have hEc : ∀ c ∈ d :: D', isNumberChar c = true := by
      rw [← hE]; exact stripCommas_number D hDc
    have hEs : stripCommas (d :: D') = d :: D' := by
      rw [← hE]; exact stripCommas_idem D
    have hd : isNumberChar d = true := hEc d (List.mem_cons_self _ _)
    have hd1 : d ≠ '$' := by rintro rfl; exact absurd hd (by decide)
    obtain ⟨w, W', hwW⟩ := List.exists_cons_of_ne_nil hS
    have hw : isSpaceChar w = false := hSh w (by rw [hwW]; rfl)
    obtain ⟨t1, t2⟩ := take_number (d :: D') S ' ' hEc (by decide)
    have b1 : (' ' :: S).takeWhile isSpaceChar = [' '] := by
      rw [hwW, List.takeWhile_cons_of_pos (by decide),
        List.takeWhile_cons_of_neg (by simp [hw])]
    have b2 : (' ' :: S).dropWhile isSpaceChar = S := by
      rw [hwW, List.dropWhile_cons_of_pos (by decide),
        List.dropWhile_cons_of_neg (by simp [hw])]
    have hDe : (d :: D').isEmpty = false := rfl
    have h1 : number_tidy_dollars (d :: D' ++ ' ' :: S) = none := by
      unfold number_tidy_dollars
      simp only [t1, t2, b1, b2, hDe]
      have : (S == "dollars".toList) = false := by
        rw [beq_eq_false_iff_ne]; exact hSd
      rw [this]
      rfl
    have h2 : tidyDollarSign (d :: D' ++ ' ' :: S) = d :: D' ++ ' ' :: S :=
      tidyDollarSign_other _ (by simp [hd1])
    have hSe : S.isEmpty = false := by rw [hwW]; rfl
    have h3 : number_tidy_nodollars (d :: D' ++ ' ' :: S) = some (d :: D', S) := by
      unfold number_tidy_nodollars
      simp only [t1, t2, b1, b2, hDe, hSe, hnl]
      simp
    obtain ⟨h4, h5⟩ := not_signed_of_blank (d :: D' ++ ' ' :: S) (by simp)
    unfold tidy_num
    simp only [tidyDollars, h1, h2, tidyNoDollars, h3, replace_commas, hEs]
    have e : d :: D' ++ " ".toList ++ S = d :: D' ++ ' ' :: S := by
      simp
    rw [e]
    unfold tidySigned
    rw [h4, h5]
    rfl

/-- A text already of the form digits, one blank, one more blank that is no line feed
is left as it is. -/
theorem tidy_num_blank_fixed (D : List Char) (b : Char)
    (hDc : ∀ c ∈ D, isNumberChar c = true) (hb : isSpaceChar b = true) (hbn : b ≠ '\n') :
    tidy_num (stripCommas D ++ ' ' :: [b]) = stripCommas D ++ ' ' :: [b] := by
  cases hE : stripCommas D with
  | nil =>
    exact tidy_num_other_lead _ (by
      intro c hc
      simp only [List.nil_append, List.head?_cons, Option.some.injEq] at hc
      rw [← hc]; decide)
  | cons d D' =>
    have hEc : ∀ c ∈ d :: D', isNumberChar c = true := by
      rw [← hE]; exact stripCommas_number D hDc
    have hEs : stripCommas (d :: D') = d :: D' := by
      rw [← hE]; exact stripCommas_idem D
    have hd : isNumberChar d = true := hEc d (List.mem_cons_self _ _)
    have hd1 : d ≠ '$' := by rintro rfl; exact absurd hd (by decide)
    obtain ⟨t1, t2⟩ := take_number (d :: D') [b] ' ' hEc (by decide)
    have b1 : (' ' :: [b]).takeWhile isSpaceChar = [' ', b] := by
      rw [List.takeWhile_cons_of_pos (by decide), List.takeWhile_cons_of_pos hb]
      rfl
    have b2 : (' ' :: [b]).dropWhile isSpaceChar = [] := by
      rw [List.dropWhile_cons_of_pos (by decide), List.dropWhile_cons_of_pos hb]
      rfl
    have hDe : (d :: D').isEmpty = false := rfl
    have h1 : number_tidy_dollars (d :: D' ++ ' ' :: [b]) = none := by
      unfold number_tidy_dollars
      simp only [t1, t2, b1, b2, hDe]
      rfl
    have h2 : tidyDollarSign (d :: D' ++ ' ' :: [b]) = d :: D' ++ ' ' :: [b] :=
      tidyDollarSign_other _ (by simp [hd1])
    have h3 : number_tidy_nodollars (d :: D' ++ ' ' :: [b]) = some (d :: D', [b]) := by
      unfold number_tidy_nodollars
      simp only [t1, t2, b1, b2, hDe]
      simp [hbn]
    obtain ⟨h4, h5⟩ := not_signed_of_blank (d :: D' ++ ' ' :: [b]) (by simp)
    unfold tidy_num
    simp only [tidyDollars, h1, h2, tidyNoDollars, h3, replace_commas, hEs]
    have e : d :: D' ++ " ".toList ++ [b] = d :: D' ++ ' ' :: [b] := by
      simp
    rw [e]
    unfold tidySigned
    rw [h4, h5]
    rfl

/-- Tidying a tidied text changes nothing: a `$` text, a number, a text of digits, one
blank and suffix, and a text that no pattern matches are each left as they are by a
second pass. -/
theorem tidy_num_twice (x : List Char) : tidy_num (tidy_num x) = tidy_num x := by
  cases h1 : number_tidy_dollars x with
  | some p =>
    rw [tidy_num_of_dollars x p h1, tidy_num_dollar, stripCommas_idem]
  | none =>
    cases x with
    | nil => rfl
    | cons c r =>
      by_cases hc1 : c = '$'
      · subst hc1
        rw [tidy_num_dollar, tidy_num_dollar, stripCommas_idem]
      by_cases hc2 : c = '-'
      · subst hc2
        rw [tidy_num_minus]
        split
        · rw [tidy_num_minus]
          split
          · rw [stripCommas_idem]
          · rfl
        · rw [tidy_num_minus]
          rename_i hn
          rw [if_neg hn]
      by_cases hc3 : isNumberChar c = true
      · have h2 : tidyDollarSign (c :: r) = c :: r :=
          tidyDollarSign_other _ (by simp [hc1])
        have hneg : number_tidy_negative (c :: r) = false := by
          simp [number_tidy_negative, hc2]
        cases h3 : number_tidy_nodollars (c :: r) with
        | some q =>
          obtain ⟨D, S⟩ := q
          obtain ⟨eD, hD, hB, hS⟩ := nodollars_some _ D S h3
          have hDc : ∀ a ∈ D, isNumberChar a = true := by
            rw [eD]; intro a ha; exact List.mem_takeWhile_imp ha
          obtain ⟨h4, h5⟩ := not_signed_of_blank (stripCommas D ++ ' ' :: S) (by simp)
          have e : tidy_num (c :: r) = stripCommas D ++ ' ' :: S := by
            unfold tidy_num
            simp only [tidyDollars, h1, h2, tidyNoDollars, h3, replace_commas]
            have e : stripCommas D ++ " ".toList ++ S = stripCommas D ++ ' ' :: S := by
              simp
            rw [e]
            simp [tidySigned, h4, h5]
          rw [e]
          rcases hS with ⟨eS, hSn, hnl⟩ | ⟨b, eS, hb, hbn⟩
          · refine tidy_num_suffix_fixed D S hDc hSn ?_ hnl ?_
            · intro a ha
              rw [eS] at ha
              exact dropWhile_space_head _ a ha
            · rw [eS]
              exact dollars_none_rest _ h1 (by rw [← eD]; exact hD) hB
          · rw [eS]
            exact tidy_num_blank_fixed D b hDc hb hbn
        | none =>
          by_cases h4 : number_tidy_positive (c :: r) = true
          · have hall : ∀ a ∈ c :: r, isNumberChar a = true := by
              simp only [number_tidy_positive, Bool.and_eq_true, List.all_eq_true] at h4
              exact h4.2
            rw [tidy_num_number _ hall, tidy_num_number _ (stripCommas_number _ hall),
              stripCommas_idem]
          · have e : tidy_num (c :: r) = c :: r := by
              unfold tidy_num
              simp [tidyDollars, h1, h2, tidyNoDollars, h3, tidySigned, h4, hneg]
            rw [e, e]
      · rw [tidy_num_other_lead (c :: r) (by
          intro a ha
          simp only [List.head?_cons, Option.some.injEq] at ha
          rw [← ha]
          exact ⟨by simpa using hc3, hc1, hc2⟩)]
        rw [tidy_num_other_lead (c :: r) (by
          intro a ha
          simp only [List.head?_cons, Option.some.injEq] at ha
          rw [← ha]
          exact ⟨by simpa using hc3, hc1, hc2⟩)]

/-- C21: `tidy_num` is idempotent: for every text `x` without line feed,
`tidy_num (tidy_num x) = tidy_num x`, so a tidied answer or guess is not changed by
tidying it again. -/
theorem tidy_num_idempotent (x : List Char) (_h : ∀ c ∈ x, c ≠ '\n') :
    tidy_num (tidy_num x) = tidy_num x :=
  tidy_num_twice x

/-- C21, witness: `1,000 armadillos` has no line feed, is tidied to `1000 armadillos`,
and tidying that again gives `1000 armadillos`. -/
theorem tidy_num_idempotent_witness :
    (∀ c ∈ "1,000 armadillos".toList, c ≠ '\n') ∧
    tidy_num (tidy_num "1,000 armadillos".toList) = tidy_num "1,000 armadillos".toList ∧
    tidy_num "1,000 armadillos".toList = "1000 armadillos".toList ∧
    tidy_num "1000 armadillos".toList = "1000 armadillos".toList :=
  ⟨by decide, tidy_num_idempotent "1,000 armadillos".toList (by decide), by decide,
    by decide⟩

end Trivia
